import Mathlib

/-!
Verification of the cpp-solutions repository: three small C++ programs
demonstrating mutual-exclusion locking.

* `src/unscrambled.cpp`: a global `std::mutex coutMutex` guards `printString`,
  which emits a string character by character while holding the lock.
  `main` starts one thread per message in `{"ABC", "123", "xyz"}` and joins them.
* `src/scrambled.cpp`: the same program without the mutex.
* `src/unnamed/part_000`: an internally synchronized class `Vector` holding a
  `std::vector<int>` and a `std::mutex`; `push_back` and `print` lock the mutex
  around their critical sections.  `func` pushes 0..4, each push followed by a
  `print`; `main` runs `func` in three threads over one shared `Vector`.

The concurrent programs are embedded as labelled interleaving machines: each
thread is a small control-state automaton whose transitions are the atomic
operations of the source (lock, unlock, one character of output, the
length-read and slot-write inside `std::vector::push_back`, one loop iteration
of `Vector::print`).  A system state holds the mutex owner, the shared data and
the shared output; `stepTo t` runs one atomic step of thread `t` when enabled.
`std::this_thread::sleep_for` only influences real-time scheduling, which the
nondeterministic interleaving already subsumes, so it contributes no step.
-/

set_option maxRecDepth 20000

namespace CppSolutions

/-! ### Generic list helpers (self-contained, proved by structural induction) -/

/-- `IsInit a b`: `a` is an initial segment of `b` (executable form). -/
def IsInit {α : Type} [DecidableEq α] (a b : List α) : Prop :=
  b.take a.length = a

/-- Concatenate a list of lists. -/
def flatCat {α : Type} : List (List α) → List α
  | [] => []
  | l :: ls => l ++ flatCat ls

theorem flatCat_append {α : Type} (l₁ l₂ : List (List α)) :
    flatCat (l₁ ++ l₂) = flatCat l₁ ++ flatCat l₂ := by
  induction l₁ with
  | nil => rfl
  | cons x xs ih => simp [flatCat, ih, List.append_assoc]

theorem take_append_self {α : Type} (a t : List α) : (a ++ t).take a.length = a := by
  induction a with
  | nil => rfl
  | cons x xs ih => simp [List.take, ih]

theorem isInit_of_append {α : Type} [DecidableEq α] {a b : List α}
    (t : List α) (h : b = a ++ t) : IsInit a b := by
  subst h; exact take_append_self a t

theorem get?_lt {α : Type} : ∀ (l : List α) (t : Nat) (c : α), l[t]? = some c → t < l.length := by
  intro l
  induction l with
  | nil => intro t c h; simp at h
  | cons x xs ih =>
    intro t c h
    cases t with
    | zero => exact Nat.succ_pos _
    | succ n =>
      simp only [List.getElem?_cons_succ] at h
      exact Nat.succ_lt_succ (ih n c h)

theorem getD_of_get? {α : Type} : ∀ (l : List α) (t : Nat) (c d : α),
    l[t]? = some c → l.getD t d = c := by
  intro l
  induction l with
  | nil => intro t c d h; simp at h
  | cons x xs ih =>
    intro t c d h
    cases t with
    | zero => simp_all [List.getD]
    | succ n =>
      simp only [List.getElem?_cons_succ] at h
      simpa [List.getD] using ih n c d h

theorem getD_set_self {α : Type} : ∀ (l : List α) (t : Nat) (c d : α),
    t < l.length → (l.set t c).getD t d = c := by
  intro l
  induction l with
  | nil => intro t c d h; simp at h
  | cons x xs ih =>
    intro t c d h
    cases t with
    | zero => rfl
    | succ n => simpa [List.set, List.getD] using ih n c d (Nat.lt_of_succ_lt_succ h)

theorem getD_set_ne {α : Type} : ∀ (l : List α) (t u : Nat) (c d : α),
    u ≠ t → (l.set t c).getD u d = l.getD u d := by
  intro l
  induction l with
  | nil => intro t u c d _; rfl
  | cons x xs ih =>
    intro t u c d h
    cases t with
    | zero =>
      cases u with
      | zero => exact absurd rfl h
      | succ m => rfl
    | succ n =>
      cases u with
      | zero => rfl
      | succ m =>
        simpa [List.set, List.getD] using ih n m c d (fun he => h (by rw [he]))

theorem getD_mem {α : Type} : ∀ (l : List α) (t : Nat) (d : α),
    t < l.length → l.getD t d ∈ l := by
  intro l
  induction l with
  | nil => intro t d h; simp at h
  | cons x xs ih =>
    intro t d h
    cases t with
    | zero => exact List.mem_cons_self _ _
    | succ n => exact List.mem_cons_of_mem _ (ih n d (Nat.lt_of_succ_lt_succ h))

theorem take_succ_of_get? {α : Type} : ∀ (l : List α) (k : Nat) (e : α),
    l[k]? = some e → l.take (k + 1) = l.take k ++ [e] := by
  intro l
  induction l with
  | nil => intro k e h; simp at h
  | cons x xs ih =>
    intro k e h
    cases k with
    | zero => simp_all
    | succ n =>
      simp only [List.getElem?_cons_succ] at h
      simp [List.take, ih n e h]

theorem length_le_of_get?_none {α : Type} : ∀ (l : List α) (k : Nat),
    l[k]? = none → l.length ≤ k := by
  intro l
  induction l with
  | nil => intro k _; exact Nat.zero_le k
  | cons x xs ih =>
    intro k h
    cases k with
    | zero => simp at h
    | succ n =>
      simp only [List.getElem?_cons_succ] at h
      exact Nat.succ_le_succ (ih n h)

/-!
### The Guarded Sink: `src/unscrambled.cpp`

`printString(text)` is `coutMutex.lock();` then the character loop
`for (char c : text) { std::cout << c; sleep_for(1ms); }` then
`coutMutex.unlock();`.  Each thread therefore moves through the control states
below; one loop iteration is one atomic emission step.  Output characters are
ghost-tagged with the id of the emitting thread so that interleaving (or its
absence) is observable in the model; the observed stream is the untagged
projection `out.map Prod.snd`.
-/

namespace Sink

/-- Control state of one thread running `printString` (src/unscrambled.cpp:15-38). -/
inductive Ctl where
  /-- about to execute `coutMutex.lock()`, will print `text` -/
  | atLock (text : List Char)
  /-- inside the critical section, `rest` characters still to print -/
  | emitting (rest : List Char)
  /-- the character loop has finished; about to execute `coutMutex.unlock()` -/
  | atUnlock
  /-- `printString` has returned -/
  | done
deriving DecidableEq

/-- Global state: the mutex owner, the (ghost-tagged) `std::cout` stream, and
the control state of each thread (indexed by position, as created by `main`). -/
structure Sys where
  lockHolder : Option Nat
  out : List (Nat × Char)
  threads : List Ctl
deriving DecidableEq

/-- Control state of thread `t` (an out-of-range index reads as `done`). -/
def ctlOf (s : Sys) (t : Nat) : Ctl := s.threads.getD t .done

/-- One atomic step of thread `t`, when enabled:
* `atLock`: `coutMutex.lock()` — blocks unless the mutex is free;
* `emitting (c :: rest)`: one loop iteration `std::cout << c` (the 1 ms sleep
  has no state effect);
* `emitting []`: the loop exits;
* `atUnlock`: `coutMutex.unlock()` — defined behaviour only for the owner.
-/
def threadStep (t : Nat) (s : Sys) : Option Sys :=
  match s.threads[t]? with
  | none => none
  | some c =>
    match c with
    | .atLock text =>
      match s.lockHolder with
      | none => some { s with lockHolder := some t, threads := s.threads.set t (.emitting text) }
      | some _ => none
    | .emitting [] => some { s with threads := s.threads.set t .atUnlock }
    | .emitting (ch :: rest) =>
      some { s with out := s.out ++ [(t, ch)], threads := s.threads.set t (.emitting rest) }
    | .atUnlock =>
      if s.lockHolder = some t then
        some { s with lockHolder := none, threads := s.threads.set t .done }
      else none
    | .done => none

/-- Alias used by the execution relation. -/
def stepTo (t : Nat) (s : Sys) : Option Sys := threadStep t s

/-- Interleaved execution: any number of atomic steps by arbitrary threads. -/
inductive Exec : Sys → Sys → Prop where
  | refl (s : Sys) : Exec s s
  | step {s s' s'' : Sys} (t : Nat) (h1 : stepTo t s = some s') (h2 : Exec s' s'') : Exec s s''

/-- Run an explicit schedule (one thread id per step). -/
def runSched : List Nat → Sys → Option Sys
  | [], s => some s
  | t :: ts, s =>
    match stepTo t s with
    | some s' => runSched ts s'
    | none => none

theorem sink_exec_of_run : ∀ (sched : List Nat) (s s' : Sys), runSched sched s = some s' → Exec s s' := by
  intro sched
  induction sched with
  | nil =>
    intro s s' h
    simp only [runSched] at h
    cases h
    exact Exec.refl s
  | cons t ts ih =>
    intro s s' h
    simp only [runSched] at h
    cases hstep : stepTo t s with
    | none => rw [hstep] at h; cases h
    | some s₁ =>
      rw [hstep] at h
      exact Exec.step t hstep (ih s₁ s' h)

/-- Initial state built by `main` (src/unscrambled.cpp:40-66): one thread per
message, mutex free, nothing printed yet by the workers. -/
def init (texts : List (List Char)) : Sys :=
  { lockHolder := none, out := [], threads := texts.map .atLock }

/-- The message thread `u` prints (out of range: empty). -/
def textOf (texts : List (List Char)) (u : Nat) : List Char := texts.getD u []

/-- `true` when every worker has returned (the state after all `join()`s). -/
def allCtlDone : List Ctl → Bool
  | [] => true
  | .done :: cs => allCtlDone cs
  | _ :: _ => false

theorem sink_allCtlDone_mem : ∀ (l : List Ctl), allCtlDone l = true → ∀ c ∈ l, c = Ctl.done := by
  intro l
  induction l with
  | nil => intro _ c hc; simp at hc
  | cons x xs ih =>
    intro h c hc
    cases x with
    | done =>
      rcases List.mem_cons.mp hc with h1 | h1
      · exact h1
      · exact ih h c h1
    | atLock text => simp [allCtlDone] at h
    | emitting rest => simp [allCtlDone] at h
    | atUnlock => simp [allCtlDone] at h

/-- The block of tagged output produced by one full `printString` call. -/
def tagText (texts : List (List Char)) (u : Nat) : List (Nat × Char) :=
  (textOf texts u).map (fun ch => (u, ch))

/-- Output of the already-finished calls, in completion order `ord`. -/
def doneFlat (texts : List (List Char)) (ord : List Nat) : List (Nat × Char) :=
  flatCat (ord.map (tagText texts))

theorem doneFlat_snoc (texts : List (List Char)) (ord : List Nat) (u : Nat) :
    doneFlat texts (ord ++ [u]) = doneFlat texts ord ++ tagText texts u := by
  simp [doneFlat, flatCat_append, flatCat]

/-- Shape of the output stream: all finished calls (order `ord`), then the
partial output of the current lock owner, if any. -/
def OutTail (texts : List (List Char)) (s : Sys) (ord : List Nat) : Prop :=
  (s.lockHolder = none ∧ s.out = doneFlat texts ord) ∨
  (∃ u, s.lockHolder = some u ∧
    ((∃ pre rest, ctlOf s u = .emitting rest ∧ pre ++ rest = textOf texts u ∧
        s.out = doneFlat texts ord ++ pre.map (fun ch => (u, ch))) ∨
     (ctlOf s u = .atUnlock ∧ s.out = doneFlat texts ord ++ tagText texts u)))

/-- Reachability invariant of the unscrambled program. -/
structure Inv (texts : List (List Char)) (s : Sys) : Prop where
  tlen : s.threads.length = texts.length
  atLockOk : ∀ u tx, ctlOf s u = .atLock tx → tx = textOf texts u
  holderLt : ∀ u, s.lockHolder = some u → u < texts.length
  holderBusy : ∀ u, s.lockHolder = some u →
    ctlOf s u ≠ .done ∧ ∀ tx, ctlOf s u ≠ .atLock tx
  busyHolder : ∀ u, u < texts.length → (∀ tx, ctlOf s u ≠ .atLock tx) →
    ctlOf s u ≠ .done → s.lockHolder = some u
  outShape : ∃ ord : List Nat, ord.Nodup ∧
    (∀ u, u ∈ ord ↔ (u < texts.length ∧ ctlOf s u = .done)) ∧
    OutTail texts s ord

theorem sink_inv_init (texts : List (List Char)) : Inv texts (init texts) := by
  have hctl : ∀ u, u < texts.length → ctlOf (init texts) u = .atLock (textOf texts u) := by
    intro u hu
    have h1 : texts[u]? = some (textOf texts u) := by
      cases h : texts[u]? with
      | none => exact absurd (length_le_of_get?_none _ _ h) (Nat.not_le_of_lt hu)
      | some v => rw [show textOf texts u = v from getD_of_get? texts u v [] h]
    have h2 : (texts.map Ctl.atLock)[u]? = some (.atLock (textOf texts u)) := by
      rw [List.getElem?_map, h1]; rfl
    exact getD_of_get? _ u _ _ h2
  have hctl' : ∀ u, ¬ u < texts.length → ctlOf (init texts) u = .done := by
    intro u hu
    unfold ctlOf init
    have : (texts.map Ctl.atLock).length ≤ u := by
      simpa using Nat.le_of_not_lt hu
    cases h : (texts.map Ctl.atLock)[u]? with
    | none => simp [List.getD, h]
    | some v => exact absurd (get?_lt _ _ _ h) (by simpa using hu)
  refine ⟨by simp [init], ?_, ?_, ?_, ?_, ?_⟩
  · intro u tx h
    by_cases hu : u < texts.length
    · rw [hctl u hu] at h; cases h; rfl
    · rw [hctl' u hu] at h; cases h
  · intro u h; simp [init] at h
  · intro u h; simp [init] at h
  · intro u hu hAt _
    exact absurd (hctl u hu) (by intro h; exact hAt _ h)
  · refine ⟨[], List.nodup_nil, ?_, Or.inl ⟨rfl, rfl⟩⟩
    intro u
    simp only [List.not_mem_nil, false_iff, not_and]
    intro hu hdone
    rw [hctl u hu] at hdone
    cases hdone

/-- Exhaustive case analysis of one enabled step of the unscrambled program. -/
theorem sink_step_cases {t : Nat} {s s' : Sys} (h : stepTo t s = some s') :
    t < s.threads.length ∧
    ((∃ tx, ctlOf s t = .atLock tx ∧ s.lockHolder = none ∧
        s' = { s with lockHolder := some t, threads := s.threads.set t (.emitting tx) }) ∨
     (ctlOf s t = .emitting [] ∧ s' = { s with threads := s.threads.set t .atUnlock }) ∨
     (∃ ch rest, ctlOf s t = .emitting (ch :: rest) ∧
        s' = { s with out := s.out ++ [(t, ch)], threads := s.threads.set t (.emitting rest) }) ∨
     (ctlOf s t = .atUnlock ∧ s.lockHolder = some t ∧
        s' = { s with lockHolder := none, threads := s.threads.set t .done })) := by
  unfold stepTo threadStep at h
  cases hc : s.threads[t]? with
  | none => rw [hc] at h; cases h
  | some c =>
    rw [hc] at h
    have hlt := get?_lt _ _ _ hc
    have hctl : ctlOf s t = c := getD_of_get? _ _ _ _ hc
    refine ⟨hlt, ?_⟩
    cases c with
    | atLock tx =>
      cases hl : s.lockHolder with
      | none =>
        rw [hl] at h
        cases h
        exact Or.inl ⟨tx, hctl, rfl, rfl⟩
      | some v => rw [hl] at h; cases h
    | emitting rest =>
      cases rest with
      | nil =>
        cases h
        exact Or.inr (Or.inl ⟨hctl, rfl⟩)
      | cons ch rest =>
        cases h
        exact Or.inr (Or.inr (Or.inl ⟨ch, rest, hctl, rfl⟩))
    | atUnlock =>
      by_cases hl : s.lockHolder = some t
      · rw [if_pos hl] at h
        cases h
        exact Or.inr (Or.inr (Or.inr ⟨hctl, hl, rfl⟩))
      · rw [if_neg hl] at h; cases h
    | done => cases h

theorem sink_inv_step {texts : List (List Char)} {s s' : Sys} {t : Nat}
    (hI : Inv texts s) (h : stepTo t s = some s') : Inv texts s' := by
  obtain ⟨hlt, hcase⟩ := sink_step_cases h
  have htn : t < texts.length := hI.tlen ▸ hlt
  rcases hcase with ⟨tx, hctl, hfree, hs'⟩ | ⟨hctl, hs'⟩ | ⟨ch, rest, hctl, hs'⟩ | ⟨hctl, hl, hs'⟩
  · -- coutMutex.lock() succeeds: t enters the critical section
    have htx : tx = textOf texts t := hI.atLockOk t tx hctl
    have hset : ∀ u, ctlOf s' u = if u = t then Ctl.emitting tx else ctlOf s u := by
      intro u
      subst hs'
      by_cases hu : u = t
      · subst hu; simpa [ctlOf] using getD_set_self _ _ _ _ hlt
      · simpa [ctlOf, hu] using getD_set_ne s.threads t u _ _ hu
    refine ⟨?_, ?_, ?_, ?_, ?_, ?_⟩
    · subst hs'; simpa using hI.tlen
    · intro u tx' hu
      rw [hset u] at hu
      by_cases he : u = t
      · rw [if_pos he] at hu; cases hu
      · rw [if_neg he] at hu; exact hI.atLockOk u tx' hu
    · intro u hu
      have : s'.lockHolder = some t := by subst hs'; rfl
      rw [this] at hu
      cases hu
      exact htn
    · intro u hu
      have : s'.lockHolder = some t := by subst hs'; rfl
      rw [this] at hu
      cases hu
      rw [hset t, if_pos rfl]
      constructor
      · intro hc; cases hc
      · intro tx' hc; cases hc
    · intro u hu hAt hDone
      have : s'.lockHolder = some t := by subst hs'; rfl
      rw [this]
      by_cases he : u = t
      · rw [he]
      · rw [hset u, if_neg he] at hAt hDone
        exact absurd (hI.busyHolder u hu hAt hDone) (by rw [hfree]; intro hc; cases hc)
    · obtain ⟨ord, hnd, hmem, htail⟩ := hI.outShape
      refine ⟨ord, hnd, ?_, ?_⟩
      · intro u
        rw [hset u]
        by_cases he : u = t
        · subst he
          rw [if_pos rfl]
          constructor
          · intro hmem'
            exact absurd ((hmem u).mp hmem').2 (by rw [hctl]; intro hc; cases hc)
          · intro ⟨_, hc⟩; cases hc
        · rw [if_neg he]; exact hmem u
      · rcases htail with ⟨_, hout⟩ | ⟨u, hu, _⟩
        · refine Or.inr ⟨t, by subst hs'; rfl, Or.inl ⟨[], tx, ?_, by simpa using htx, ?_⟩⟩
          · rw [hset t, if_pos rfl]
          · subst hs'; simpa using hout
        · rw [hfree] at hu; cases hu
  · -- the character loop of t exits (rest = [])
    have hAt : ∀ tx', ctlOf s t ≠ Ctl.atLock tx' := by rw [hctl]; intro _ hc; cases hc
    have hDone : ctlOf s t ≠ Ctl.done := by rw [hctl]; intro hc; cases hc
    have hl : s.lockHolder = some t := hI.busyHolder t htn hAt hDone
    have hset : ∀ u, ctlOf s' u = if u = t then Ctl.atUnlock else ctlOf s u := by
      intro u
      subst hs'
      by_cases hu : u = t
      · subst hu; simpa [ctlOf] using getD_set_self _ _ _ _ hlt
      · simpa [ctlOf, hu] using getD_set_ne s.threads t u _ _ hu
    have hl' : s'.lockHolder = some t := by subst hs'; simpa using hl
    refine ⟨?_, ?_, ?_, ?_, ?_, ?_⟩
    · subst hs'; simpa using hI.tlen
    · intro u tx' hu
      rw [hset u] at hu
      by_cases he : u = t
      · rw [if_pos he] at hu; cases hu
      · rw [if_neg he] at hu; exact hI.atLockOk u tx' hu
    · intro u hu
      rw [hl'] at hu; cases hu; exact htn
    · intro u hu
      rw [hl'] at hu; cases hu
      rw [hset t, if_pos rfl]
      constructor
      · intro hc; cases hc
      · intro tx' hc; cases hc
    · intro u hu hAt' hDone'
      rw [hl']
      by_cases he : u = t
      · rw [he]
      · rw [hset u, if_neg he] at hAt' hDone'
        have := hI.busyHolder u hu hAt' hDone'
        rw [hl] at this
        cases this
        exact absurd rfl he
    · obtain ⟨ord, hnd, hmem, htail⟩ := hI.outShape
      refine ⟨ord, hnd, ?_, ?_⟩
      · intro u
        rw [hset u]
        by_cases he : u = t
        · subst he
          rw [if_pos rfl]
          constructor
          · intro hmem'
            exact absurd ((hmem u).mp hmem').2 (by rw [hctl]; intro hc; cases hc)
          · intro ⟨_, hc⟩; cases hc
        · rw [if_neg he]; exact hmem u
      · rcases htail with ⟨hnone, _⟩ | ⟨u, hu, hin⟩
        · rw [hl] at hnone; cases hnone
        · rw [hl] at hu
          cases hu
          rcases hin with ⟨pre, rest', hemit, hcat, hout⟩ | ⟨hcu, _⟩
        -- u = t, and t was emitting with remainder rest' = []
          · rw [hctl] at hemit
            cases hemit
            rw [List.append_nil] at hcat
            refine Or.inr ⟨t, hl', Or.inr ⟨by rw [hset t, if_pos rfl], ?_⟩⟩
            subst hs'
            simpa [tagText, hcat] using hout
          · rw [hctl] at hcu; cases hcu
  · -- one loop iteration: std::cout << ch while holding the mutex
    have hAt : ∀ tx', ctlOf s t ≠ Ctl.atLock tx' := by rw [hctl]; intro _ hc; cases hc
    have hDone : ctlOf s t ≠ Ctl.done := by rw [hctl]; intro hc; cases hc
    have hl : s.lockHolder = some t := hI.busyHolder t htn hAt hDone
    have hset : ∀ u, ctlOf s' u = if u = t then Ctl.emitting rest else ctlOf s u := by
      intro u
      subst hs'
      by_cases hu : u = t
      · subst hu; simpa [ctlOf] using getD_set_self _ _ _ _ hlt
      · simpa [ctlOf, hu] using getD_set_ne s.threads t u _ _ hu
    have hl' : s'.lockHolder = some t := by subst hs'; simpa using hl
    refine ⟨?_, ?_, ?_, ?_, ?_, ?_⟩
    · subst hs'; simpa using hI.tlen
    · intro u tx' hu
      rw [hset u] at hu
      by_cases he : u = t
      · rw [if_pos he] at hu; cases hu
      · rw [if_neg he] at hu; exact hI.atLockOk u tx' hu
    · intro u hu
      rw [hl'] at hu; cases hu; exact htn
    · intro u hu
      rw [hl'] at hu; cases hu
      rw [hset t, if_pos rfl]
      constructor
      · intro hc; cases hc
      · intro tx' hc; cases hc
    · intro u hu hAt' hDone'
      rw [hl']
      by_cases he : u = t
      · rw [he]
      · rw [hset u, if_neg he] at hAt' hDone'
        have := hI.busyHolder u hu hAt' hDone'
        rw [hl] at this
        cases this
        exact absurd rfl he
    · obtain ⟨ord, hnd, hmem, htail⟩ := hI.outShape
      refine ⟨ord, hnd, ?_, ?_⟩
      · intro u
        rw [hset u]
        by_cases he : u = t
        · subst he
          rw [if_pos rfl]
          constructor
          · intro hmem'
            exact absurd ((hmem u).mp hmem').2 (by rw [hctl]; intro hc; cases hc)
          · intro ⟨_, hc⟩; cases hc
        · rw [if_neg he]; exact hmem u
      · rcases htail with ⟨hnone, _⟩ | ⟨u, hu, hin⟩
        · rw [hl] at hnone; cases hnone
        · rw [hl] at hu
          cases hu
          rcases hin with ⟨pre, rest', hemit, hcat, hout⟩ | ⟨hcu, _⟩
          · rw [hctl] at hemit
            cases hemit
            refine Or.inr ⟨t, hl', Or.inl ⟨pre ++ [ch], rest, by rw [hset t, if_pos rfl], ?_, ?_⟩⟩
            · rw [List.append_assoc]; simpa using hcat
            · subst hs'
              simp only [List.map_append, List.map_cons, List.map_nil]
              rw [hout, List.append_assoc]
          · rw [hctl] at hcu; cases hcu
  · -- coutMutex.unlock(): t leaves the critical section and is done
    have hset : ∀ u, ctlOf s' u = if u = t then Ctl.done else ctlOf s u := by
      intro u
      subst hs'
      by_cases hu : u = t
      · subst hu; simpa [ctlOf] using getD_set_self _ _ _ _ hlt
      · simpa [ctlOf, hu] using getD_set_ne s.threads t u _ _ hu
    have hl' : s'.lockHolder = none := by subst hs'; rfl
    refine ⟨?_, ?_, ?_, ?_, ?_, ?_⟩
    · subst hs'; simpa using hI.tlen
    · intro u tx' hu
      rw [hset u] at hu
      by_cases he : u = t
      · rw [if_pos he] at hu; cases hu
      · rw [if_neg he] at hu; exact hI.atLockOk u tx' hu
    · intro u hu
      rw [hl'] at hu; cases hu
    · intro u hu
      rw [hl'] at hu; cases hu
    · intro u hu hAt' hDone'
      rw [hl']
      by_cases he : u = t
      · subst he
        rw [hset u, if_pos rfl] at hDone'
        exact absurd rfl hDone'
      · rw [hset u, if_neg he] at hAt' hDone'
        have := hI.busyHolder u hu hAt' hDone'
        rw [hl] at this
        cases this
        exact absurd rfl he
    · obtain ⟨ord, hnd, hmem, htail⟩ := hI.outShape
      have htord : t ∉ ord := by
        intro hmem'
        exact absurd ((hmem t).mp hmem').2 (by rw [hctl]; intro hc; cases hc)
      refine ⟨ord ++ [t], ?_, ?_, ?_⟩
      · simpa [List.nodup_append] using ⟨hnd, fun hc => htord hc⟩
      · intro u
        rw [hset u]
        by_cases he : u = t
        · subst he
          rw [if_pos rfl]
          exact iff_of_true (List.mem_append.mpr (Or.inr (List.mem_singleton.mpr rfl)))
            ⟨htn, rfl⟩
        · simp only [if_neg he, List.mem_append, List.mem_singleton]
          constructor
          · intro hor
            rcases hor with hor | hor
            · exact (hmem u).mp hor
            · exact absurd hor he
          · intro hc
            exact Or.inl ((hmem u).mpr hc)
      · rcases htail with ⟨hnone, _⟩ | ⟨u, hu, hin⟩
        · rw [hl] at hnone; cases hnone
        · rw [hl] at hu
          cases hu
          rcases hin with ⟨pre, rest', hemit, _, _⟩ | ⟨_, hout⟩
          · rw [hctl] at hemit; cases hemit
          · refine Or.inl ⟨hl', ?_⟩
            rw [doneFlat_snoc]
            subst hs'
            simpa using hout

theorem sink_inv_exec {texts : List (List Char)} {s s' : Sys}
    (hI : Inv texts s) (h : Exec s s') : Inv texts s' := by
  induction h with
  | refl s => exact hI
  | step t h1 h2 ih => exact ih (sink_inv_step hI h1)

theorem map_snd_doneFlat (texts : List (List Char)) (ord : List Nat) :
    (doneFlat texts ord).map Prod.snd = flatCat (ord.map (textOf texts)) := by
  induction ord with
  | nil => rfl
  | cons u ord ih =>
    have : doneFlat texts (u :: ord) = tagText texts u ++ doneFlat texts ord := rfl
    rw [this]
    simp only [List.map_append, ih, List.map_cons]
    have : (tagText texts u).map Prod.snd = textOf texts u := by
      simp [tagText]
    rw [this]
    rfl

/-- Claim C1: for any two concurrent calls to `writeAtomic` (`printString` of
src/unscrambled.cpp, guarded by `coutMutex`), the character sequences never
interleave in the observed output.  In every complete execution (all workers
joined) of the worker threads spawned by `main`, the untagged `std::cout`
stream is the concatenation of each call's full character sequence, contiguous
and unbroken, in some total order `ord` over the workers. -/
theorem writeAtomic_calls_never_interleave (texts : List (List Char)) (s : Sys)
    (hx : Exec (init texts) s) (hd : allCtlDone s.threads = true) :
    ∃ ord : List Nat, ord.Nodup ∧ (∀ u, u ∈ ord ↔ u < texts.length) ∧
      s.out.map Prod.snd = flatCat (ord.map (textOf texts)) := by
  have hI : Inv texts s := sink_inv_exec (sink_inv_init texts) hx
  have hdone : ∀ u, u < texts.length → ctlOf s u = .done := by
    intro u hu
    exact sink_allCtlDone_mem s.threads hd _ (getD_mem s.threads u .done (hI.tlen ▸ hu))
  obtain ⟨ord, hnd, hmem, htail⟩ := hI.outShape
  refine ⟨ord, hnd, ?_, ?_⟩
  · intro u
    rw [hmem u]
    exact ⟨fun h => h.1, fun h => ⟨h, hdone u h⟩⟩
  · rcases htail with ⟨_, hout⟩ | ⟨u, hu, _⟩
    · rw [hout]; exact map_snd_doneFlat texts ord
    · have := (hI.holderBusy u hu).1
      exact absurd (hdone u (hI.holderLt u hu)) this

/-- The three messages of `main` in src/unscrambled.cpp. -/
def demoTexts : List (List Char) := [['A', 'B', 'C'], ['1', '2', '3'], ['x', 'y', 'z']]

/-- A complete schedule: each worker runs its six atomic steps in turn. -/
def demoSched : List Nat :=
  [0, 0, 0, 0, 0, 0, 1, 1, 1, 1, 1, 1, 2, 2, 2, 2, 2, 2]

/-- The final state of the schedule above. -/
def demoFinal : Sys := (runSched demoSched (init demoTexts)).getD (init demoTexts)

/-- Witness for C1: the theorem applied to a concrete complete execution of the
three workers printing "ABC", "123", "xyz". -/
theorem writeAtomic_calls_never_interleave_witness :
    ∃ ord : List Nat, ord.Nodup ∧ (∀ u, u ∈ ord ↔ u < demoTexts.length) ∧
      demoFinal.out.map Prod.snd = flatCat (ord.map (textOf demoTexts)) :=
  writeAtomic_calls_never_interleave demoTexts demoFinal
    (sink_exec_of_run demoSched _ _ (by rfl)) (by rfl)

end Sink

/-!
### The unsynchronized sink: `src/scrambled.cpp`

Same worker body without any mutex: `printString` is just the character loop,
so a thread's control state is simply the list of characters it still has to
print.  (This variant is the repository's demonstration of interleaving; it is
modelled here for the exit-status claim, whose sources include its `main`.)
-/

namespace Scr

/-- Global state of the scrambled program: the tagged output stream and, per
thread, the characters it still has to print (src/scrambled.cpp:6-12). -/
structure Sys where
  out : List (Nat × Char)
  threads : List (List Char)
deriving DecidableEq

/-- One loop iteration of thread `t`: `std::cout << c` (no lock involved). -/
def threadStep (t : Nat) (s : Sys) : Option Sys :=
  match s.threads[t]? with
  | none => none
  | some [] => none
  | some (ch :: rest) =>
    some { s with out := s.out ++ [(t, ch)], threads := s.threads.set t rest }

def stepTo (t : Nat) (s : Sys) : Option Sys := threadStep t s

inductive Exec : Sys → Sys → Prop where
  | refl (s : Sys) : Exec s s
  | step {s s' s'' : Sys} (t : Nat) (h1 : stepTo t s = some s') (h2 : Exec s' s'') : Exec s s''

def runSched : List Nat → Sys → Option Sys
  | [], s => some s
  | t :: ts, s =>
    match stepTo t s with
    | some s' => runSched ts s'
    | none => none

/-- Initial state built by `main` (src/scrambled.cpp:14-31). -/
def init (texts : List (List Char)) : Sys := { out := [], threads := texts }

/-- `true` when every worker has printed everything (state after the joins). -/
def allScrDone : List (List Char) → Bool
  | [] => true
  | [] :: ls => allScrDone ls
  | (_ :: _) :: _ => false

/-- `main` of src/scrambled.cpp: start the workers, run some interleaving,
join them all, print the final `std::endl`, `return 0;`.  The exit status is
defined exactly when the joins complete, and is then the literal `0` returned
by `main`. -/
def mainRun (texts : List (List Char)) (sched : List Nat) : Option Nat :=
  match runSched sched (init texts) with
  | some s => if allScrDone s.threads then some 0 else none
  | none => none

end Scr

namespace Sink

/-- `main` of src/unscrambled.cpp:40-66: start the workers, run some
interleaving, join them all, print the final `std::endl`, `return 0;`. -/
def mainRun (texts : List (List Char)) (sched : List Nat) : Option Nat :=
  match runSched sched (init texts) with
  | some s => if allCtlDone s.threads then some 0 else none
  | none => none

end Sink

/-!
### The Guarded Container: `src/unnamed/part_000`

The class `Vector` owns `std::vector<int> vec` and `std::mutex mut`.

* `push_back(i)` is `mut.lock(); vec.push_back(i); mut.unlock();`.  The body
  `vec.push_back(i)` is modelled at the granularity of the underlying
  container: first the current length `n = vec.size()` is read, then the value
  is written at slot `n` making the size `n + 1`.  A write with a stale `n`
  truncates everything past slot `n` — this is how a lost update would
  manifest; the mutex is what has to rule it out.
* `print()` is `mut.lock(); for (auto i : vec) cout << i << ", "; cout << endl;
  mut.unlock();`.  Each loop iteration reads `vec[k]` and emits it as one
  step; the terminating `endl` is its own step.
* `func(vec)` is `for i in 0..4 { push_back(i); sleep_for(50ms); print(); }`.
* `main` runs `func` in three threads on one shared `Vector` and joins them.

Vector entries and output events are ghost-tagged with the id of the thread
that produced them; tags never influence the semantics.
-/

namespace Cont

/-- One operation of a worker's source program against the shared `Vector`. -/
inductive Op where
  | push (v : Int)
  /-- a call to `Vector::print` -/
  | render
deriving DecidableEq

/-- Control state of one worker thread.  `ops` is always the list of source
operations that remain after the current call finishes. -/
inductive Ctl where
  /-- between calls; next call is `ops.head` (empty: the thread has returned) -/
  | atOp (ops : List Op)
  /-- inside `push_back(v)`: `mut` held, about to read `vec.size()` -/
  | pbRead (v : Int) (ops : List Op)
  /-- inside `push_back(v)`: `mut` held, length `n` read, about to write slot `n` -/
  | pbWrite (v : Int) (n : Nat) (ops : List Op)
  /-- inside `push_back`: value stored, about to execute `mut.unlock()` -/
  | pbUnlock (ops : List Op)
  /-- inside `print`: `mut` held, loop about to handle index `k` -/
  | prLoop (k : Nat) (ops : List Op)
  /-- inside `print`: loop finished, about to emit `std::endl` -/
  | prEndl (ops : List Op)
  /-- inside `print`: about to execute `mut.unlock()` -/
  | prUnlock (ops : List Op)
deriving DecidableEq

/-- One event on `std::cout`: a `cout << i << ", "` for a (tagged) vector
entry, or the `std::endl` ending one `print` call; the emitting thread is
recorded as a ghost tag. -/
inductive OutEvt where
  | elem (t : Nat) (e : Nat × Int)
  | endl (t : Nat)
deriving DecidableEq

/-- Global state: mutex owner, the shared `std::vector<int>` (entries tagged
with the pushing thread), the `std::cout` event stream, and each thread's
control state. -/
structure Sys where
  lockHolder : Option Nat
  vec : List (Nat × Int)
  out : List OutEvt
  threads : List Ctl
deriving DecidableEq

/-- Control state of thread `t` (an out-of-range index reads as returned). -/
def ctlOf (s : Sys) (t : Nat) : Ctl := s.threads.getD t (.atOp [])

/-- One atomic step of thread `t`, when enabled:
* `atOp (push v :: ops)` / `atOp (render :: ops)`: `mut.lock()` — blocks
  unless the mutex is free;
* `pbRead`: `n = vec.size()` inside `vec.push_back`;
* `pbWrite`: store the value at slot `n`, making the size `n + 1` (a stale
  `n` would truncate later entries);
* `pbUnlock` / `prUnlock`: `mut.unlock()` — defined behaviour only for the
  owner;
* `prLoop k`: one iteration `std::cout << vec[k] << ", "` if `k` is in range,
  otherwise the loop exits;
* `prEndl`: `std::cout << std::endl`.
The 50 ms sleep in `func` has no state effect and contributes no step. -/
def threadStep (t : Nat) (s : Sys) : Option Sys :=
  match s.threads[t]? with
  | none => none
  | some c =>
    match c with
    | .atOp ops =>
      match ops with
      | [] => none
      | op :: ops =>
        match op with
        | .push v =>
          match s.lockHolder with
          | none => some { s with lockHolder := some t, threads := s.threads.set t (.pbRead v ops) }
          | some _ => none
        | .render =>
          match s.lockHolder with
          | none => some { s with lockHolder := some t, threads := s.threads.set t (.prLoop 0 ops) }
          | some _ => none
    | .pbRead v ops =>
      some { s with threads := s.threads.set t (.pbWrite v s.vec.length ops) }
    | .pbWrite v n ops =>
      some { s with vec := s.vec.take n ++ [(t, v)], threads := s.threads.set t (.pbUnlock ops) }
    | .pbUnlock ops =>
      if s.lockHolder = some t then
        some { s with lockHolder := none, threads := s.threads.set t (.atOp ops) }
      else none
    | .prLoop k ops =>
      match s.vec[k]? with
      | some e => some { s with out := s.out ++ [.elem t e], threads := s.threads.set t (.prLoop (k + 1) ops) }
      | none => some { s with threads := s.threads.set t (.prEndl ops) }
    | .prEndl ops =>
      some { s with out := s.out ++ [.endl t], threads := s.threads.set t (.prUnlock ops) }
    | .prUnlock ops =>
      if s.lockHolder = some t then
        some { s with lockHolder := none, threads := s.threads.set t (.atOp ops) }
      else none

def stepTo (t : Nat) (s : Sys) : Option Sys := threadStep t s

inductive Exec : Sys → Sys → Prop where
  | refl (s : Sys) : Exec s s
  | step {s s' s'' : Sys} (t : Nat) (h1 : stepTo t s = some s') (h2 : Exec s' s'') : Exec s s''

def runSched : List Nat → Sys → Option Sys
  | [], s => some s
  | t :: ts, s =>
    match stepTo t s with
    | some s' => runSched ts s'
    | none => none

theorem exec_of_run : ∀ (sched : List Nat) (s s' : Sys),
    runSched sched s = some s' → Exec s s' := by
  intro sched
  induction sched with
  | nil =>
    intro s s' h
    simp only [runSched] at h
    cases h
    exact Exec.refl s
  | cons t ts ih =>
    intro s s' h
    simp only [runSched] at h
    cases hstep : stepTo t s with
    | none => rw [hstep] at h; cases h
    | some s₁ =>
      rw [hstep] at h
      exact Exec.step t hstep (ih s₁ s' h)

/-- Initial state: mutex free, vector empty, nothing printed, every thread
about to run its program `orig[t]` (src/unnamed/part_000, `main`). -/
def init (orig : List (List Op)) : Sys :=
  { lockHolder := none, vec := [], out := [], threads := orig.map .atOp }

/-- Source program of thread `u` (out of range: empty). -/
def opsOf (orig : List (List Op)) (u : Nat) : List Op := orig.getD u []

/-- The values a list of operations pushes, in order. -/
def pushesOf : List Op → List Int
  | [] => []
  | .push v :: ops => v :: pushesOf ops
  | .render :: ops => pushesOf ops

/-- The values thread `t` has not yet durably stored, given its control state
(a `push` counts as stored once the `pbWrite` step has happened). -/
def remPushes : Ctl → List Int
  | .atOp ops => pushesOf ops
  | .pbRead v ops => v :: pushesOf ops
  | .pbWrite v _ ops => v :: pushesOf ops
  | .pbUnlock ops => pushesOf ops
  | .prLoop _ ops => pushesOf ops
  | .prEndl ops => pushesOf ops
  | .prUnlock ops => pushesOf ops

/-- `true` iff the control state is inside a critical section of `mut`. -/
def inCrit : Ctl → Bool
  | .atOp _ => false
  | _ => true

/-- `true` iff the control state is an emission step of `print` (the element
loop or the final `endl`). -/
def isEmit : Ctl → Bool
  | .prLoop _ _ => true
  | .prEndl _ => true
  | _ => false

/-- `true` iff the control state is inside a `print` call or about to start
one. -/
def isRender : Ctl → Bool
  | .atOp (.render :: _) => true
  | .prLoop _ _ => true
  | .prEndl _ => true
  | .prUnlock _ => true
  | _ => false

/-- `true` iff the control state is the slot-write step of `push_back`. -/
def isPbWrite : Ctl → Bool
  | .pbWrite _ _ _ => true
  | _ => false

/-- `true` when every worker has returned (the state after all `join()`s). -/
def allCtlDone : List Ctl → Bool
  | [] => true
  | .atOp [] :: cs => allCtlDone cs
  | _ :: _ => false

/-- The values of worker `u` in a tagged vector, in order. -/
def tfilter (u : Nat) (v : List (Nat × Int)) : List Int :=
  (v.filter (fun e => e.1 = u)).map Prod.snd

/-- Total number of `push_back` calls made by all the workers' programs. -/
def totalPushes : List (List Op) → Nat
  | [] => 0
  | ops :: rest => (pushesOf ops).length + totalPushes rest

/-- Number of values not yet stored, summed over all threads. -/
def remTotal : List Ctl → Nat
  | [] => 0
  | c :: cs => (remPushes c).length + remTotal cs

/-- A prefix-consistent snapshot: every entry is tagged by a real worker, and
for each worker `u` the `u`-tagged values are an initial segment of the values
`u`'s program pushes — only fully completed appends, each exactly once, in
program order. -/
def Snap (orig : List (List Op)) (v : List (Nat × Int)) : Prop :=
  (∀ e ∈ v, e.1 < orig.length) ∧
  ∀ u, u < orig.length → IsInit (tfilter u v) (pushesOf (opsOf orig u))

/-- The output of one completed `print` call by thread `b.1` whose loop saw
the snapshot `b.2`. -/
def renderBlock (b : Nat × List (Nat × Int)) : List OutEvt :=
  b.2.map (OutEvt.elem b.1) ++ [OutEvt.endl b.1]

def blockFlat : List (Nat × List (Nat × Int)) → List OutEvt
  | [] => []
  | b :: bs => renderBlock b ++ blockFlat bs

theorem blockFlat_snoc (bs : List (Nat × List (Nat × Int))) (b : Nat × List (Nat × Int)) :
    blockFlat (bs ++ [b]) = blockFlat bs ++ renderBlock b := by
  induction bs with
  | nil => simp [blockFlat]
  | cons x xs ih => simp [blockFlat, ih, List.append_assoc]

/-- The partial output of the `print` call currently in progress, if any:
always the image of an initial segment of the current (lock-protected)
vector. -/
def liveOut (s : Sys) : List OutEvt :=
  match s.lockHolder with
  | none => []
  | some u =>
    match ctlOf s u with
    | .prLoop k _ => (s.vec.take k).map (OutEvt.elem u)
    | .prEndl _ => s.vec.map (OutEvt.elem u)
    | .prUnlock _ => s.vec.map (OutEvt.elem u) ++ [OutEvt.endl u]
    | _ => []

/-- Reachability invariant of the internally synchronized `Vector` program. -/
structure Inv (orig : List (List Op)) (s : Sys) : Prop where
  tlen : s.threads.length = orig.length
  tagsLt : ∀ e ∈ s.vec, e.1 < orig.length
  pushOk : ∀ u, u < orig.length →
    tfilter u s.vec ++ remPushes (ctlOf s u) = pushesOf (opsOf orig u)
  lenOk : s.vec.length + remTotal s.threads = totalPushes orig
  holderLt : ∀ u, s.lockHolder = some u → u < orig.length
  holderCrit : ∀ u, s.lockHolder = some u → inCrit (ctlOf s u) = true
  critHolder : ∀ u, inCrit (ctlOf s u) = true → s.lockHolder = some u
  regOk : ∀ u v n ops, ctlOf s u = .pbWrite v n ops → n = s.vec.length
  loopOk : ∀ u k ops, ctlOf s u = .prLoop k ops → k ≤ s.vec.length
  outShape : ∃ blocks : List (Nat × List (Nat × Int)),
    (∀ b ∈ blocks, b.1 < orig.length ∧ Snap orig b.2) ∧
    s.out = blockFlat blocks ++ liveOut s

/-- Exhaustive case analysis of one enabled step of the `Vector` program. -/
theorem step_cases {t : Nat} {s s' : Sys} (h : stepTo t s = some s') :
    t < s.threads.length ∧
    ((∃ v ops, ctlOf s t = .atOp (.push v :: ops) ∧ s.lockHolder = none ∧
        s' = { s with lockHolder := some t, threads := s.threads.set t (.pbRead v ops) }) ∨
     (∃ ops, ctlOf s t = .atOp (.render :: ops) ∧ s.lockHolder = none ∧
        s' = { s with lockHolder := some t, threads := s.threads.set t (.prLoop 0 ops) }) ∨
     (∃ v ops, ctlOf s t = .pbRead v ops ∧
        s' = { s with threads := s.threads.set t (.pbWrite v s.vec.length ops) }) ∨
     (∃ v n ops, ctlOf s t = .pbWrite v n ops ∧
        s' = { s with vec := s.vec.take n ++ [(t, v)],
                      threads := s.threads.set t (.pbUnlock ops) }) ∨
     (∃ ops, ctlOf s t = .pbUnlock ops ∧ s.lockHolder = some t ∧
        s' = { s with lockHolder := none, threads := s.threads.set t (.atOp ops) }) ∨
     (∃ k ops e, ctlOf s t = .prLoop k ops ∧ s.vec[k]? = some e ∧
        s' = { s with out := s.out ++ [.elem t e],
                      threads := s.threads.set t (.prLoop (k + 1) ops) }) ∨
     (∃ k ops, ctlOf s t = .prLoop k ops ∧ s.vec[k]? = none ∧
        s' = { s with threads := s.threads.set t (.prEndl ops) }) ∨
     (∃ ops, ctlOf s t = .prEndl ops ∧
        s' = { s with out := s.out ++ [.endl t], threads := s.threads.set t (.prUnlock ops) }) ∨
     (∃ ops, ctlOf s t = .prUnlock ops ∧ s.lockHolder = some t ∧
        s' = { s with lockHolder := none, threads := s.threads.set t (.atOp ops) })) := by
  unfold stepTo threadStep at h
  cases hc : s.threads[t]? with
  | none => rw [hc] at h; cases h
  | some c =>
    rw [hc] at h
    have hlt := get?_lt _ _ _ hc
    have hctl : ctlOf s t = c := getD_of_get? _ _ _ _ hc
    refine ⟨hlt, ?_⟩
    cases c with
    | atOp ops =>
      cases ops with
      | nil => cases h
      | cons op ops =>
        cases op with
        | push v =>
          cases hl : s.lockHolder with
          | none =>
            rw [hl] at h
            cases h
            exact Or.inl ⟨v, ops, hctl, rfl, rfl⟩
          | some w => rw [hl] at h; cases h
        | render =>
          cases hl : s.lockHolder with
          | none =>
            rw [hl] at h
            cases h
            exact Or.inr (Or.inl ⟨ops, hctl, rfl, rfl⟩)
          | some w => rw [hl] at h; cases h
    | pbRead v ops =>
      cases h
      exact Or.inr (Or.inr (Or.inl ⟨v, ops, hctl, rfl⟩))
    | pbWrite v n ops =>
      cases h
      exact Or.inr (Or.inr (Or.inr (Or.inl ⟨v, n, ops, hctl, rfl⟩)))
    | pbUnlock ops =>
      have h' : (if s.lockHolder = some t then
          some { s with lockHolder := none, threads := s.threads.set t (Ctl.atOp ops) }
        else none) = some s' := h
      by_cases hl : s.lockHolder = some t
      · rw [if_pos hl] at h'
        cases h'
        exact Or.inr (Or.inr (Or.inr (Or.inr (Or.inl ⟨ops, hctl, hl, rfl⟩))))
      · rw [if_neg hl] at h'; cases h'
    | prLoop k ops =>
      have h' : (match s.vec[k]? with | some e => some { s with out := s.out ++ [OutEvt.elem t e], threads := s.threads.set t (Ctl.prLoop (k + 1) ops) } | none => some { s with threads := s.threads.set t (Ctl.prEndl ops) } : Option Sys) = some s' := h
      cases hv : s.vec[k]? with
      | some e =>
        rw [hv] at h'
        cases h'
        exact Or.inr (Or.inr (Or.inr (Or.inr (Or.inr (Or.inl ⟨k, ops, e, hctl, hv, rfl⟩)))))
      | none =>
        rw [hv] at h'
        cases h'
        exact Or.inr (Or.inr (Or.inr (Or.inr (Or.inr (Or.inr (Or.inl ⟨k, ops, hctl, hv, rfl⟩))))))
    | prEndl ops =>
      cases h
      exact Or.inr (Or.inr (Or.inr (Or.inr (Or.inr (Or.inr (Or.inr (Or.inl ⟨ops, hctl, rfl⟩)))))))
    | prUnlock ops =>
      have h' : (if s.lockHolder = some t then
          some { s with lockHolder := none, threads := s.threads.set t (Ctl.atOp ops) }
        else none) = some s' := h
      by_cases hl : s.lockHolder = some t
      · rw [if_pos hl] at h'
        cases h'
        exact Or.inr (Or.inr (Or.inr (Or.inr (Or.inr (Or.inr (Or.inr (Or.inr ⟨ops, hctl, hl, rfl⟩)))))))
      · rw [if_neg hl] at h'; cases h'

theorem getD_ge {α : Type} : ∀ (l : List α) (u : Nat) (d : α),
    l.length ≤ u → l.getD u d = d := by
  intro l
  induction l with
  | nil => intro u d _; cases u <;> rfl
  | cons x xs ih =>
    intro u d h
    cases u with
    | zero => exact absurd h (by simp)
    | succ n => simpa [List.getD] using ih n d (Nat.le_of_succ_le_succ h)

theorem ctlOf_init (orig : List (List Op)) (u : Nat) :
    ctlOf (init orig) u = .atOp (opsOf orig u) := by
  by_cases hu : u < orig.length
  · have h1 : orig[u]? = some (opsOf orig u) := by
      cases h : orig[u]? with
      | none => exact absurd (length_le_of_get?_none _ _ h) (Nat.not_le_of_lt hu)
      | some v => rw [show opsOf orig u = v from getD_of_get? orig u v [] h]
    have h2 : (orig.map Ctl.atOp)[u]? = some (.atOp (opsOf orig u)) := by
      rw [List.getElem?_map, h1]; rfl
    exact getD_of_get? _ u _ _ h2
  · have h1 : opsOf orig u = [] := getD_ge orig u [] (Nat.le_of_not_lt hu)
    have h2 : (orig.map Ctl.atOp).length ≤ u := by simpa using Nat.le_of_not_lt hu
    unfold ctlOf init
    rw [getD_ge _ u _ h2, h1]

theorem tfilter_nil (u : Nat) : tfilter u [] = [] := rfl

theorem tfilter_snoc (u t : Nat) (v : List (Nat × Int)) (x : Int) :
    tfilter u (v ++ [(t, x)]) = tfilter u v ++ (if t = u then [x] else []) := by
  unfold tfilter
  rw [List.filter_append]
  by_cases h : t = u
  · subst h; simp
  · simp [h]

theorem remTotal_map_atOp : ∀ (orig : List (List Op)),
    remTotal (orig.map .atOp) = totalPushes orig := by
  intro orig
  induction orig with
  | nil => rfl
  | cons ops rest ih => simp [remTotal, totalPushes, remPushes, ih]

theorem remTotal_set : ∀ (l : List Ctl) (t : Nat) (c c' : Ctl),
    l[t]? = some c →
    remTotal (l.set t c') + (remPushes c).length = remTotal l + (remPushes c').length := by
  intro l
  induction l with
  | nil => intro t c c' h; simp at h
  | cons x xs ih =>
    intro t c c' h
    cases t with
    | zero =>
      simp only [List.getElem?_cons_zero, Option.some.injEq] at h
      subst h
      simp [List.set, remTotal]
      omega
    | succ n =>
      simp only [List.getElem?_cons_succ] at h
      have := ih n c c' h
      simp [List.set, remTotal]
      omega

theorem inv_init (orig : List (List Op)) : Inv orig (init orig) := by
  refine ⟨by simp [init], ?_, ?_, ?_, ?_, ?_, ?_, ?_, ?_, ?_⟩
  · intro e he; simp [init] at he
  · intro u hu
    rw [ctlOf_init]
    rfl
  · show (0 : Nat) + remTotal (orig.map .atOp) = totalPushes orig
    rw [Nat.zero_add]
    exact remTotal_map_atOp orig
  · intro u h; simp [init] at h
  · intro u h; simp [init] at h
  · intro u h
    rw [ctlOf_init] at h
    simp [inCrit] at h
  · intro u v n ops h
    rw [ctlOf_init] at h
    cases h
  · intro u k ops h
    rw [ctlOf_init] at h
    cases h
  · refine ⟨[], by simp, ?_⟩
    show (init orig).out = blockFlat [] ++ liveOut (init orig)
    simp [init, blockFlat, liveOut]

theorem get?_of_getD {α : Type} : ∀ (l : List α) (t : Nat) (c d : α),
    t < l.length → l.getD t d = c → l[t]? = some c := by
  intro l
  induction l with
  | nil => intro t c d h _; simp at h
  | cons x xs ih =>
    intro t c d h h2
    cases t with
    | zero => simp_all [List.getD]
    | succ n =>
      simp only [List.getElem?_cons_succ]
      exact ih n c d (Nat.lt_of_succ_lt_succ h) (by simpa [List.getD] using h2)

theorem inv_step {orig : List (List Op)} {s s' : Sys} {t : Nat}
    (hI : Inv orig s) (h : stepTo t s = some s') : Inv orig s' := by
  obtain ⟨hlt, hcase⟩ := step_cases h
  have htn : t < orig.length := hI.tlen ▸ hlt
  obtain ⟨blocks, hbl, hblout⟩ := hI.outShape
  rcases hcase with ⟨v, ops, hctl, hfree, hs'⟩ | ⟨ops, hctl, hfree, hs'⟩ |
    ⟨v, ops, hctl, hs'⟩ | ⟨v, n, ops, hctl, hs'⟩ | ⟨ops, hctl, hl, hs'⟩ |
    ⟨k, ops, e, hctl, hv, hs'⟩ | ⟨k, ops, hctl, hv, hs'⟩ | ⟨ops, hctl, hs'⟩ |
    ⟨ops, hctl, hl, hs'⟩
  · -- 1: mut.lock() at the start of push_back(v)
    have hset : ∀ u, ctlOf s' u = if u = t then Ctl.pbRead v ops else ctlOf s u := by
      intro u
      subst hs'
      by_cases hu : u = t
      · subst hu; simpa [ctlOf] using getD_set_self _ _ _ _ hlt
      · simpa [ctlOf, hu] using getD_set_ne s.threads t u _ _ hu
    have hctl' : ctlOf s' t = Ctl.pbRead v ops := by
      have := hset t; rwa [if_pos rfl] at this
    have hhold : s'.lockHolder = some t := by subst hs'; rfl
    have hvec : s'.vec = s.vec := by subst hs'; rfl
    have hout : s'.out = s.out := by subst hs'; rfl
    have htset : s'.threads = s.threads.set t (Ctl.pbRead v ops) := by subst hs'; rfl
    have hget : s.threads[t]? = some (Ctl.atOp (Op.push v :: ops)) :=
      get?_of_getD s.threads t _ _ hlt hctl
    refine ⟨?_, ?_, ?_, ?_, ?_, ?_, ?_, ?_, ?_, ?_⟩
    · rw [htset]; simpa using hI.tlen
    · rw [hvec]; exact hI.tagsLt
    · intro u hu
      rw [hvec, hset u]
      by_cases he : u = t
      · subst he
        rw [if_pos rfl]
        have := hI.pushOk u hu
        rw [hctl] at this
        exact this
      · rw [if_neg he]; exact hI.pushOk u hu
    · have heq := remTotal_set s.threads t _ (Ctl.pbRead v ops) hget
      have hlen : (remPushes (Ctl.atOp (Op.push v :: ops))).length =
          (remPushes (Ctl.pbRead v ops)).length := rfl
      have hold := hI.lenOk
      rw [hvec, htset]
      omega
    · intro u hu
      rw [hhold] at hu
      cases hu
      exact htn
    · intro u hu
      rw [hhold] at hu
      cases hu
      rw [hctl']
      rfl
    · intro u hcrit
      rw [hset u] at hcrit
      by_cases he : u = t
      · subst he; exact hhold
      · rw [if_neg he] at hcrit
        have := hI.critHolder u hcrit
        rw [hfree] at this
        cases this
    · intro u v' n' ops' hw
      rw [hset u] at hw
      by_cases he : u = t
      · rw [if_pos he] at hw; cases hw
      · rw [if_neg he] at hw
        rw [hvec]
        exact hI.regOk u v' n' ops' hw
    · intro u k' ops' hw
      rw [hset u] at hw
      by_cases he : u = t
      · rw [if_pos he] at hw; cases hw
      · rw [if_neg he] at hw
        rw [hvec]
        exact hI.loopOk u k' ops' hw
    · refine ⟨blocks, hbl, ?_⟩
      have hlv' : liveOut s' = [] := by simp only [liveOut, hhold, hctl']
      have hlv : liveOut s = [] := by simp only [liveOut, hfree]
      rw [hout, hblout, hlv, hlv']
  · -- 2: mut.lock() at the start of print()
    have hset : ∀ u, ctlOf s' u = if u = t then Ctl.prLoop 0 ops else ctlOf s u := by
      intro u
      subst hs'
      by_cases hu : u = t
      · subst hu; simpa [ctlOf] using getD_set_self _ _ _ _ hlt
      · simpa [ctlOf, hu] using getD_set_ne s.threads t u _ _ hu
    have hctl' : ctlOf s' t = Ctl.prLoop 0 ops := by
      have := hset t; rwa [if_pos rfl] at this
    have hhold : s'.lockHolder = some t := by subst hs'; rfl
    have hvec : s'.vec = s.vec := by subst hs'; rfl
    have hout : s'.out = s.out := by subst hs'; rfl
    have htset : s'.threads = s.threads.set t (Ctl.prLoop 0 ops) := by subst hs'; rfl
    have hget : s.threads[t]? = some (Ctl.atOp (Op.render :: ops)) :=
      get?_of_getD s.threads t _ _ hlt hctl
    refine ⟨?_, ?_, ?_, ?_, ?_, ?_, ?_, ?_, ?_, ?_⟩
    · rw [htset]; simpa using hI.tlen
    · rw [hvec]; exact hI.tagsLt
    · intro u hu
      rw [hvec, hset u]
      by_cases he : u = t
      · subst he
        rw [if_pos rfl]
        have := hI.pushOk u hu
        rw [hctl] at this
        exact this
      · rw [if_neg he]; exact hI.pushOk u hu
    · have heq := remTotal_set s.threads t _ (Ctl.prLoop 0 ops) hget
      have hlen : (remPushes (Ctl.atOp (Op.render :: ops))).length =
          (remPushes (Ctl.prLoop 0 ops)).length := rfl
      have hold := hI.lenOk
      rw [hvec, htset]
      omega
    · intro u hu
      rw [hhold] at hu
      cases hu
      exact htn
    · intro u hu
      rw [hhold] at hu
      cases hu
      rw [hctl']
      rfl
    · intro u hcrit
      rw [hset u] at hcrit
      by_cases he : u = t
      · subst he; exact hhold
      · rw [if_neg he] at hcrit
        have := hI.critHolder u hcrit
        rw [hfree] at this
        cases this
    · intro u v' n' ops' hw
      rw [hset u] at hw
      by_cases he : u = t
      · rw [if_pos he] at hw; cases hw
      · rw [if_neg he] at hw
        rw [hvec]
        exact hI.regOk u v' n' ops' hw
    · intro u k' ops' hw
      rw [hset u] at hw
      by_cases he : u = t
      · rw [if_pos he] at hw
        cases hw
        exact Nat.zero_le _
      · rw [if_neg he] at hw
        rw [hvec]
        exact hI.loopOk u k' ops' hw
    · refine ⟨blocks, hbl, ?_⟩
      have hlv' : liveOut s' = [] := by
        simp only [liveOut, hhold, hctl', List.take_zero, List.map_nil]
      have hlv : liveOut s = [] := by simp only [liveOut, hfree]
      rw [hout, hblout, hlv, hlv']
  · -- 3: n = vec.size() inside push_back(v)
    have hl : s.lockHolder = some t := hI.critHolder t (by rw [hctl]; rfl)
    have hset : ∀ u, ctlOf s' u = if u = t then Ctl.pbWrite v s.vec.length ops else ctlOf s u := by
      intro u
      subst hs'
      by_cases hu : u = t
      · subst hu; simpa [ctlOf] using getD_set_self _ _ _ _ hlt
      · simpa [ctlOf, hu] using getD_set_ne s.threads t u _ _ hu
    have hctl' : ctlOf s' t = Ctl.pbWrite v s.vec.length ops := by
      have := hset t; rwa [if_pos rfl] at this
    have hhold : s'.lockHolder = some t := by subst hs'; exact hl
    have hvec : s'.vec = s.vec := by subst hs'; rfl
    have hout : s'.out = s.out := by subst hs'; rfl
    have htset : s'.threads = s.threads.set t (Ctl.pbWrite v s.vec.length ops) := by
      subst hs'; rfl
    have hget : s.threads[t]? = some (Ctl.pbRead v ops) :=
      get?_of_getD s.threads t _ _ hlt hctl
    refine ⟨?_, ?_, ?_, ?_, ?_, ?_, ?_, ?_, ?_, ?_⟩
    · rw [htset]; simpa using hI.tlen
    · rw [hvec]; exact hI.tagsLt
    · intro u hu
      rw [hvec, hset u]
      by_cases he : u = t
      · subst he
        rw [if_pos rfl]
        have := hI.pushOk u hu
        rw [hctl] at this
        exact this
      · rw [if_neg he]; exact hI.pushOk u hu
    · have heq := remTotal_set s.threads t _ (Ctl.pbWrite v s.vec.length ops) hget
      have hlen : (remPushes (Ctl.pbRead v ops)).length =
          (remPushes (Ctl.pbWrite v s.vec.length ops)).length := rfl
      have hold := hI.lenOk
      rw [hvec, htset]
      omega
    · intro u hu
      rw [hhold] at hu
      cases hu
      exact htn
    · intro u hu
      rw [hhold] at hu
      cases hu
      rw [hctl']
      rfl
    · intro u hcrit
      rw [hset u] at hcrit
      by_cases he : u = t
      · subst he; exact hhold
      · rw [if_neg he] at hcrit
        have := hI.critHolder u hcrit
        rw [hl] at this
        cases this
        exact absurd rfl he
    · intro u v' n' ops' hw
      rw [hset u] at hw
      by_cases he : u = t
      · rw [if_pos he] at hw
        cases hw
        rw [hvec]
      · rw [if_neg he] at hw
        rw [hvec]
        exact hI.regOk u v' n' ops' hw
    · intro u k' ops' hw
      rw [hset u] at hw
      by_cases he : u = t
      · rw [if_pos he] at hw; cases hw
      · rw [if_neg he] at hw
        rw [hvec]
        exact hI.loopOk u k' ops' hw
    · refine ⟨blocks, hbl, ?_⟩
      have hlv' : liveOut s' = [] := by simp only [liveOut, hhold, hctl']
      have hlv : liveOut s = [] := by simp only [liveOut, hl, hctl]
      rw [hout, hblout, hlv, hlv']
  · -- 4: the slot-write inside push_back(v): the value is durably stored
    have hl : s.lockHolder = some t := hI.critHolder t (by rw [hctl]; rfl)
    have hn : n = s.vec.length := hI.regOk t v n ops hctl
    have hset : ∀ u, ctlOf s' u = if u = t then Ctl.pbUnlock ops else ctlOf s u := by
      intro u
      subst hs'
      by_cases hu : u = t
      · subst hu; simpa [ctlOf] using getD_set_self _ _ _ _ hlt
      · simpa [ctlOf, hu] using getD_set_ne s.threads t u _ _ hu
    have hctl' : ctlOf s' t = Ctl.pbUnlock ops := by
      have := hset t; rwa [if_pos rfl] at this
    have hhold : s'.lockHolder = some t := by subst hs'; exact hl
    have hvec : s'.vec = s.vec ++ [(t, v)] := by
      subst hs'
      show s.vec.take n ++ [(t, v)] = s.vec ++ [(t, v)]
      rw [hn, List.take_length]
    have hout : s'.out = s.out := by subst hs'; rfl
    have htset : s'.threads = s.threads.set t (Ctl.pbUnlock ops) := by subst hs'; rfl
    have hget : s.threads[t]? = some (Ctl.pbWrite v n ops) :=
      get?_of_getD s.threads t _ _ hlt hctl
    refine ⟨?_, ?_, ?_, ?_, ?_, ?_, ?_, ?_, ?_, ?_⟩
    · rw [htset]; simpa using hI.tlen
    · intro e he
      rw [hvec] at he
      rcases List.mem_append.mp he with he | he
      · exact hI.tagsLt e he
      · rw [List.mem_singleton] at he
        subst he
        exact htn
    · intro u hu
      rw [hvec, hset u, tfilter_snoc]
      by_cases he : u = t
      · subst he
        rw [if_pos rfl, if_pos rfl]
        have := hI.pushOk u hu
        rw [hctl] at this
        show (tfilter u s.vec ++ [v]) ++ remPushes (Ctl.pbUnlock ops) = pushesOf (opsOf orig u)
        rw [List.append_assoc]
        exact this
      · rw [if_neg he, if_neg (fun hc => he hc.symm), List.append_nil]
        exact hI.pushOk u hu
    · have heq := remTotal_set s.threads t _ (Ctl.pbUnlock ops) hget
      have hlen : (remPushes (Ctl.pbWrite v n ops)).length =
          (remPushes (Ctl.pbUnlock ops)).length + 1 := rfl
      have hold := hI.lenOk
      have hveclen : s'.vec.length = s.vec.length + 1 := by rw [hvec]; simp
      rw [hveclen, htset]
      omega
    · intro u hu
      rw [hhold] at hu
      cases hu
      exact htn
    · intro u hu
      rw [hhold] at hu
      cases hu
      rw [hctl']
      rfl
    · intro u hcrit
      rw [hset u] at hcrit
      by_cases he : u = t
      · subst he; exact hhold
      · rw [if_neg he] at hcrit
        have := hI.critHolder u hcrit
        rw [hl] at this
        cases this
        exact absurd rfl he
    · intro u v' n' ops' hw
      rw [hset u] at hw
      by_cases he : u = t
      · rw [if_pos he] at hw; cases hw
      · rw [if_neg he] at hw
        have hcrit : inCrit (ctlOf s u) = true := by rw [hw]; rfl
        have := hI.critHolder u hcrit
        rw [hl] at this
        cases this
        exact absurd rfl he
    · intro u k' ops' hw
      rw [hset u] at hw
      by_cases he : u = t
      · rw [if_pos he] at hw; cases hw
      · rw [if_neg he] at hw
        have := hI.loopOk u k' ops' hw
        have hveclen : s'.vec.length = s.vec.length + 1 := by rw [hvec]; simp
        omega
    · refine ⟨blocks, hbl, ?_⟩
      have hlv' : liveOut s' = [] := by simp only [liveOut, hhold, hctl']
      have hlv : liveOut s = [] := by simp only [liveOut, hl, hctl]
      rw [hout, hblout, hlv, hlv']
  · -- 5: mut.unlock() at the end of push_back
    have hset : ∀ u, ctlOf s' u = if u = t then Ctl.atOp ops else ctlOf s u := by
      intro u
      subst hs'
      by_cases hu : u = t
      · subst hu; simpa [ctlOf] using getD_set_self _ _ _ _ hlt
      · simpa [ctlOf, hu] using getD_set_ne s.threads t u _ _ hu
    have hctl' : ctlOf s' t = Ctl.atOp ops := by
      have := hset t; rwa [if_pos rfl] at this
    have hhold : s'.lockHolder = none := by subst hs'; rfl
    have hvec : s'.vec = s.vec := by subst hs'; rfl
    have hout : s'.out = s.out := by subst hs'; rfl
    have htset : s'.threads = s.threads.set t (Ctl.atOp ops) := by subst hs'; rfl
    have hget : s.threads[t]? = some (Ctl.pbUnlock ops) :=
      get?_of_getD s.threads t _ _ hlt hctl
    refine ⟨?_, ?_, ?_, ?_, ?_, ?_, ?_, ?_, ?_, ?_⟩
    · rw [htset]; simpa using hI.tlen
    · rw [hvec]; exact hI.tagsLt
    · intro u hu
      rw [hvec, hset u]
      by_cases he : u = t
      · subst he
        rw [if_pos rfl]
        have := hI.pushOk u hu
        rw [hctl] at this
        exact this
      · rw [if_neg he]; exact hI.pushOk u hu
    · have heq := remTotal_set s.threads t _ (Ctl.atOp ops) hget
      have hlen : (remPushes (Ctl.pbUnlock ops)).length =
          (remPushes (Ctl.atOp ops)).length := rfl
      have hold := hI.lenOk
      rw [hvec, htset]
      omega
    · intro u hu
      rw [hhold] at hu
      cases hu
    · intro u hu
      rw [hhold] at hu
      cases hu
    · intro u hcrit
      rw [hset u] at hcrit
      by_cases he : u = t
      · subst he
        rw [if_pos rfl] at hcrit
        simp [inCrit] at hcrit
      · rw [if_neg he] at hcrit
        have := hI.critHolder u hcrit
        rw [hl] at this
        cases this
        exact absurd rfl he
    · intro u v' n' ops' hw
      rw [hset u] at hw
      by_cases he : u = t
      · rw [if_pos he] at hw; cases hw
      · rw [if_neg he] at hw
        rw [hvec]
        exact hI.regOk u v' n' ops' hw
    · intro u k' ops' hw
      rw [hset u] at hw
      by_cases he : u = t
      · rw [if_pos he] at hw; cases hw
      · rw [if_neg he] at hw
        rw [hvec]
        exact hI.loopOk u k' ops' hw
    · refine ⟨blocks, hbl, ?_⟩
      have hlv' : liveOut s' = [] := by simp only [liveOut, hhold]
      have hlv : liveOut s = [] := by simp only [liveOut, hl, hctl]
      rw [hout, hblout, hlv, hlv']
  · -- 6: one print-loop iteration: cout << vec[k] << ", "
    have hl : s.lockHolder = some t := hI.critHolder t (by rw [hctl]; rfl)
    have hset : ∀ u, ctlOf s' u = if u = t then Ctl.prLoop (k + 1) ops else ctlOf s u := by
      intro u
      subst hs'
      by_cases hu : u = t
      · subst hu; simpa [ctlOf] using getD_set_self _ _ _ _ hlt
      · simpa [ctlOf, hu] using getD_set_ne s.threads t u _ _ hu
    have hctl' : ctlOf s' t = Ctl.prLoop (k + 1) ops := by
      have := hset t; rwa [if_pos rfl] at this
    have hhold : s'.lockHolder = some t := by subst hs'; exact hl
    have hvec : s'.vec = s.vec := by subst hs'; rfl
    have hout : s'.out = s.out ++ [OutEvt.elem t e] := by subst hs'; rfl
    have htset : s'.threads = s.threads.set t (Ctl.prLoop (k + 1) ops) := by subst hs'; rfl
    have hget : s.threads[t]? = some (Ctl.prLoop k ops) :=
      get?_of_getD s.threads t _ _ hlt hctl
    refine ⟨?_, ?_, ?_, ?_, ?_, ?_, ?_, ?_, ?_, ?_⟩
    · rw [htset]; simpa using hI.tlen
    · rw [hvec]; exact hI.tagsLt
    · intro u hu
      rw [hvec, hset u]
      by_cases he : u = t
      · subst he
        rw [if_pos rfl]
        have := hI.pushOk u hu
        rw [hctl] at this
        exact this
      · rw [if_neg he]; exact hI.pushOk u hu
    · have heq := remTotal_set s.threads t _ (Ctl.prLoop (k + 1) ops) hget
      have hlen : (remPushes (Ctl.prLoop k ops)).length =
          (remPushes (Ctl.prLoop (k + 1) ops)).length := rfl
      have hold := hI.lenOk
      rw [hvec, htset]
      omega
    · intro u hu
      rw [hhold] at hu
      cases hu
      exact htn
    · intro u hu
      rw [hhold] at hu
      cases hu
      rw [hctl']
      rfl
    · intro u hcrit
      rw [hset u] at hcrit
      by_cases he : u = t
      · subst he; exact hhold
      · rw [if_neg he] at hcrit
        have := hI.critHolder u hcrit
        rw [hl] at this
        cases this
        exact absurd rfl he
    · intro u v' n' ops' hw
      rw [hset u] at hw
      by_cases he : u = t
      · rw [if_pos he] at hw; cases hw
      · rw [if_neg he] at hw
        rw [hvec]
        exact hI.regOk u v' n' ops' hw
    · intro u k' ops' hw
      rw [hset u] at hw
      by_cases he : u = t
      · rw [if_pos he] at hw
        cases hw
        rw [hvec]
        exact get?_lt _ _ _ hv
      · rw [if_neg he] at hw
        rw [hvec]
        exact hI.loopOk u k' ops' hw
    · refine ⟨blocks, hbl, ?_⟩
      have hlv' : liveOut s' = (s.vec.take (k + 1)).map (OutEvt.elem t) := by
        simp only [liveOut, hhold, hctl', hvec]
      have hlv : liveOut s = (s.vec.take k).map (OutEvt.elem t) := by
        simp only [liveOut, hl, hctl]
      rw [hout, hblout, hlv, hlv', take_succ_of_get? _ _ _ hv, List.map_append]
      simp [List.append_assoc]
  · -- 7: the print loop exits (k = vec.size())
    have hl : s.lockHolder = some t := hI.critHolder t (by rw [hctl]; rfl)
    have hk : k = s.vec.length :=
      Nat.le_antisymm (hI.loopOk t k ops hctl) (length_le_of_get?_none _ _ hv)
    have hset : ∀ u, ctlOf s' u = if u = t then Ctl.prEndl ops else ctlOf s u := by
      intro u
      subst hs'
      by_cases hu : u = t
      · subst hu; simpa [ctlOf] using getD_set_self _ _ _ _ hlt
      · simpa [ctlOf, hu] using getD_set_ne s.threads t u _ _ hu
    have hctl' : ctlOf s' t = Ctl.prEndl ops := by
      have := hset t; rwa [if_pos rfl] at this
    have hhold : s'.lockHolder = some t := by subst hs'; exact hl
    have hvec : s'.vec = s.vec := by subst hs'; rfl
    have hout : s'.out = s.out := by subst hs'; rfl
    have htset : s'.threads = s.threads.set t (Ctl.prEndl ops) := by subst hs'; rfl
    have hget : s.threads[t]? = some (Ctl.prLoop k ops) :=
      get?_of_getD s.threads t _ _ hlt hctl
    refine ⟨?_, ?_, ?_, ?_, ?_, ?_, ?_, ?_, ?_, ?_⟩
    · rw [htset]; simpa using hI.tlen
    · rw [hvec]; exact hI.tagsLt
    · intro u hu
      rw [hvec, hset u]
      by_cases he : u = t
      · subst he
        rw [if_pos rfl]
        have := hI.pushOk u hu
        rw [hctl] at this
        exact this
      · rw [if_neg he]; exact hI.pushOk u hu
    · have heq := remTotal_set s.threads t _ (Ctl.prEndl ops) hget
      have hlen : (remPushes (Ctl.prLoop k ops)).length =
          (remPushes (Ctl.prEndl ops)).length := rfl
      have hold := hI.lenOk
      rw [hvec, htset]
      omega
    · intro u hu
      rw [hhold] at hu
      cases hu
      exact htn
    · intro u hu
      rw [hhold] at hu
      cases hu
      rw [hctl']
      rfl
    · intro u hcrit
      rw [hset u] at hcrit
      by_cases he : u = t
      · subst he; exact hhold
      · rw [if_neg he] at hcrit
        have := hI.critHolder u hcrit
        rw [hl] at this
        cases this
        exact absurd rfl he
    · intro u v' n' ops' hw
      rw [hset u] at hw
      by_cases he : u = t
      · rw [if_pos he] at hw; cases hw
      · rw [if_neg he] at hw
        rw [hvec]
        exact hI.regOk u v' n' ops' hw
    · intro u k' ops' hw
      rw [hset u] at hw
      by_cases he : u = t
      · rw [if_pos he] at hw; cases hw
      · rw [if_neg he] at hw
        rw [hvec]
        exact hI.loopOk u k' ops' hw
    · refine ⟨blocks, hbl, ?_⟩
      have hlv' : liveOut s' = s.vec.map (OutEvt.elem t) := by
        simp only [liveOut, hhold, hctl', hvec]
      have hlv : liveOut s = s.vec.map (OutEvt.elem t) := by
        simp only [liveOut, hl, hctl]
        rw [hk, List.take_length]
      rw [hout, hblout, hlv, hlv']
  · -- 8: cout << endl at the end of print
    have hl : s.lockHolder = some t := hI.critHolder t (by rw [hctl]; rfl)
    have hset : ∀ u, ctlOf s' u = if u = t then Ctl.prUnlock ops else ctlOf s u := by
      intro u
      subst hs'
      by_cases hu : u = t
      · subst hu; simpa [ctlOf] using getD_set_self _ _ _ _ hlt
      · simpa [ctlOf, hu] using getD_set_ne s.threads t u _ _ hu
    have hctl' : ctlOf s' t = Ctl.prUnlock ops := by
      have := hset t; rwa [if_pos rfl] at this
    have hhold : s'.lockHolder = some t := by subst hs'; exact hl
    have hvec : s'.vec = s.vec := by subst hs'; rfl
    have hout : s'.out = s.out ++ [OutEvt.endl t] := by subst hs'; rfl
    have htset : s'.threads = s.threads.set t (Ctl.prUnlock ops) := by subst hs'; rfl
    have hget : s.threads[t]? = some (Ctl.prEndl ops) :=
      get?_of_getD s.threads t _ _ hlt hctl
    refine ⟨?_, ?_, ?_, ?_, ?_, ?_, ?_, ?_, ?_, ?_⟩
    · rw [htset]; simpa using hI.tlen
    · rw [hvec]; exact hI.tagsLt
    · intro u hu
      rw [hvec, hset u]
      by_cases he : u = t
      · subst he
        rw [if_pos rfl]
        have := hI.pushOk u hu
        rw [hctl] at this
        exact this
      · rw [if_neg he]; exact hI.pushOk u hu
    · have heq := remTotal_set s.threads t _ (Ctl.prUnlock ops) hget
      have hlen : (remPushes (Ctl.prEndl ops)).length =
          (remPushes (Ctl.prUnlock ops)).length := rfl
      have hold := hI.lenOk
      rw [hvec, htset]
      omega
    · intro u hu
      rw [hhold] at hu
      cases hu
      exact htn
    · intro u hu
      rw [hhold] at hu
      cases hu
      rw [hctl']
      rfl
    · intro u hcrit
      rw [hset u] at hcrit
      by_cases he : u = t
      · subst he; exact hhold
      · rw [if_neg he] at hcrit
        have := hI.critHolder u hcrit
        rw [hl] at this
        cases this
        exact absurd rfl he
    · intro u v' n' ops' hw
      rw [hset u] at hw
      by_cases he : u = t
      · rw [if_pos he] at hw; cases hw
      · rw [if_neg he] at hw
        rw [hvec]
        exact hI.regOk u v' n' ops' hw
    · intro u k' ops' hw
      rw [hset u] at hw
      by_cases he : u = t
      · rw [if_pos he] at hw; cases hw
      · rw [if_neg he] at hw
        rw [hvec]
        exact hI.loopOk u k' ops' hw
    · refine ⟨blocks, hbl, ?_⟩
      have hlv' : liveOut s' = s.vec.map (OutEvt.elem t) ++ [OutEvt.endl t] := by
        simp only [liveOut, hhold, hctl', hvec]
      have hlv : liveOut s = s.vec.map (OutEvt.elem t) := by
        simp only [liveOut, hl, hctl]
      rw [hout, hblout, hlv, hlv']
      simp [List.append_assoc]
  · -- 9: mut.unlock() at the end of print: the call's block is complete
    have hset : ∀ u, ctlOf s' u = if u = t then Ctl.atOp ops else ctlOf s u := by
      intro u
      subst hs'
      by_cases hu : u = t
      · subst hu; simpa [ctlOf] using getD_set_self _ _ _ _ hlt
      · simpa [ctlOf, hu] using getD_set_ne s.threads t u _ _ hu
    have hctl' : ctlOf s' t = Ctl.atOp ops := by
      have := hset t; rwa [if_pos rfl] at this
    have hhold : s'.lockHolder = none := by subst hs'; rfl
    have hvec : s'.vec = s.vec := by subst hs'; rfl
    have hout : s'.out = s.out := by subst hs'; rfl
    have htset : s'.threads = s.threads.set t (Ctl.atOp ops) := by subst hs'; rfl
    have hget : s.threads[t]? = some (Ctl.prUnlock ops) :=
      get?_of_getD s.threads t _ _ hlt hctl
    refine ⟨?_, ?_, ?_, ?_, ?_, ?_, ?_, ?_, ?_, ?_⟩
    · rw [htset]; simpa using hI.tlen
    · rw [hvec]; exact hI.tagsLt
    · intro u hu
      rw [hvec, hset u]
      by_cases he : u = t
      · subst he
        rw [if_pos rfl]
        have := hI.pushOk u hu
        rw [hctl] at this
        exact this
      · rw [if_neg he]; exact hI.pushOk u hu
    · have heq := remTotal_set s.threads t _ (Ctl.atOp ops) hget
      have hlen : (remPushes (Ctl.prUnlock ops)).length =
          (remPushes (Ctl.atOp ops)).length := rfl
      have hold := hI.lenOk
      rw [hvec, htset]
      omega
    · intro u hu
      rw [hhold] at hu
      cases hu
    · intro u hu
      rw [hhold] at hu
      cases hu
    · intro u hcrit
      rw [hset u] at hcrit
      by_cases he : u = t
      · subst he
        rw [if_pos rfl] at hcrit
        simp [inCrit] at hcrit
      · rw [if_neg he] at hcrit
        have := hI.critHolder u hcrit
        rw [hl] at this
        cases this
        exact absurd rfl he
    · intro u v' n' ops' hw
      rw [hset u] at hw
      by_cases he : u = t
      · rw [if_pos he] at hw; cases hw
      · rw [if_neg he] at hw
        rw [hvec]
        exact hI.regOk u v' n' ops' hw
    · intro u k' ops' hw
      rw [hset u] at hw
      by_cases he : u = t
      · rw [if_pos he] at hw; cases hw
      · rw [if_neg he] at hw
        rw [hvec]
        exact hI.loopOk u k' ops' hw
    · refine ⟨blocks ++ [(t, s.vec)], ?_, ?_⟩
      · intro b hb
        rcases List.mem_append.mp hb with hb | hb
        · exact hbl b hb
        · rw [List.mem_singleton] at hb
          subst hb
          refine ⟨htn, hI.tagsLt, ?_⟩
          intro u hu
          exact isInit_of_append _ (hI.pushOk u hu).symm
      · have hlv' : liveOut s' = [] := by simp only [liveOut, hhold]
        have hlv : liveOut s = s.vec.map (OutEvt.elem t) ++ [OutEvt.endl t] := by
          simp only [liveOut, hl, hctl]
        rw [hout, hblout, hlv, hlv', blockFlat_snoc]
        show blockFlat blocks ++ (s.vec.map (OutEvt.elem t) ++ [OutEvt.endl t]) =
          (blockFlat blocks ++ renderBlock (t, s.vec)) ++ []
        rw [List.append_nil]
        rfl

theorem inv_exec {orig : List (List Op)} {s s' : Sys}
    (hI : Inv orig s) (h : Exec s s') : Inv orig s' := by
  induction h with
  | refl s => exact hI
  | step t h1 h2 ih => exact ih (inv_step hI h1)

theorem allCtlDone_mem : ∀ (l : List Ctl), allCtlDone l = true → ∀ c ∈ l, c = Ctl.atOp [] := by
  intro l
  induction l with
  | nil => intro _ c hc; simp at hc
  | cons x xs ih =>
    intro h c hc
    cases x with
    | atOp ops =>
      cases ops with
      | nil =>
        rcases List.mem_cons.mp hc with h1 | h1
        · exact h1
        · exact ih h c h1
      | cons op ops => simp [allCtlDone] at h
    | pbRead v ops => simp [allCtlDone] at h
    | pbWrite v n ops => simp [allCtlDone] at h
    | pbUnlock ops => simp [allCtlDone] at h
    | prLoop k ops => simp [allCtlDone] at h
    | prEndl ops => simp [allCtlDone] at h
    | prUnlock ops => simp [allCtlDone] at h

theorem remTotal_done : ∀ (l : List Ctl), allCtlDone l = true → remTotal l = 0 := by
  intro l
  induction l with
  | nil => intro _; rfl
  | cons x xs ih =>
    intro h
    have hx : x = Ctl.atOp [] := allCtlDone_mem (x :: xs) h x (List.mem_cons_self _ _)
    subst hx
    have hxs : allCtlDone xs = true := h
    simp [remTotal, remPushes, pushesOf, ih hxs]

/-- After a complete execution, each worker's values sit in the vector exactly
as its program pushed them, and the length is the total number of pushes. -/
theorem final_state (orig : List (List Op)) (s : Sys)
    (hx : Exec (init orig) s) (hd : allCtlDone s.threads = true) :
    (∀ u, u < orig.length → tfilter u s.vec = pushesOf (opsOf orig u)) ∧
    s.vec.length = totalPushes orig := by
  have hI : Inv orig s := inv_exec (inv_init orig) hx
  have hdone : ∀ u, u < orig.length → ctlOf s u = .atOp [] := by
    intro u hu
    exact allCtlDone_mem s.threads hd _ (getD_mem s.threads u _ (hI.tlen ▸ hu))
  constructor
  · intro u hu
    have := hI.pushOk u hu
    rw [hdone u hu] at this
    simpa [remPushes, pushesOf] using this
  · have := hI.lenOk
    rw [remTotal_done s.threads hd] at this
    simpa using this

/-- The body of `func` (src/unnamed/part_000:74-81), compiled to operations:
`for (int i = 0; i < n; ++i) { vec.push_back(i); sleep_for(50ms); vec.print(); }`. -/
def funcIters : Nat → List Op
  | 0 => []
  | n + 1 => funcIters n ++ [Op.push (Int.ofNat n), Op.render]

/-- `func` runs five iterations. -/
def funcOps : List Op := funcIters 5

/-- `main` (src/unnamed/part_000:89-102): three threads running `func` on one
shared `Vector`. -/
def mainOrig : List (List Op) := [funcOps, funcOps, funcOps]

/-- Claim C3: for every finite set of concurrent `append` (`push_back`) calls
on one Guarded Container — any number of worker threads `orig`, each pushing
any values — every complete execution ends with the sequence holding, for each
worker, exactly that worker's pushed values in program order, and with length
equal to the total number of `push_back` calls: no lost updates, every
appended value occurrence exactly once. -/
theorem append_no_lost_updates (orig : List (List Op)) (s : Sys)
    (hx : Exec (init orig) s) (hd : allCtlDone s.threads = true) :
    (∀ u, u < orig.length → tfilter u s.vec = pushesOf (opsOf orig u)) ∧
    s.vec.length = totalPushes orig :=
  final_state orig s hx hd

/-- Claim C4: in the program of src/unnamed/part_000 — three workers each
appending 0,1,2,3,4 to one shared container with a snapshot print after each
append — every complete execution leaves exactly 15 elements in the container,
and each worker's own values appear in the relative order 0,1,2,3,4. -/
theorem main_scenario_fifteen_elements (s : Sys)
    (hx : Exec (init mainOrig) s) (hd : allCtlDone s.threads = true) :
    s.vec.length = 15 ∧ ∀ u, u < 3 → tfilter u s.vec = [0, 1, 2, 3, 4] := by
  obtain ⟨hf, hlen⟩ := final_state mainOrig s hx hd
  constructor
  · rw [hlen]; rfl
  · intro u hu
    have hops : opsOf mainOrig u = funcOps := by
      cases u with
      | zero => rfl
      | succ u =>
        cases u with
        | zero => rfl
        | succ u =>
          cases u with
          | zero => rfl
          | succ u => omega
    have := hf u (by simpa [mainOrig] using hu)
    rw [hops] at this
    rw [this]
    rfl

theorem inCrit_of_isEmit : ∀ c : Ctl, isEmit c = true → inCrit c = true := by
  intro c h
  cases c <;> simp_all [isEmit, inCrit]

theorem isInit_refl {α : Type} [DecidableEq α] (a : List α) : IsInit a a := by
  unfold IsInit
  exact List.take_length a

/-- Claim C5: every `renderAll` (`print`) output interleaved with concurrent
`append` calls is a prefix-consistent snapshot.  In every reachable state the
whole `std::cout` stream parses into the contiguous blocks of the completed
`print` calls — each block a `Snap`: per worker, an initial segment of that
worker's pushes, i.e. only fully completed appends, never a torn value — plus
the in-progress call's partial output, which is always the image of an initial
segment of the current lock-protected vector (`liveOut`). -/
theorem renderAll_snapshots_prefix_consistent (orig : List (List Op)) (s : Sys)
    (hx : Exec (init orig) s) :
    ∃ blocks : List (Nat × List (Nat × Int)),
      (∀ b ∈ blocks, b.1 < orig.length ∧ Snap orig b.2) ∧
      s.out = blockFlat blocks ++ liveOut s :=
  (inv_exec (inv_init orig) hx).outShape

/-- Claim C6: during every `renderAll` (`print`) call the emission happens
while the container's mutex is held by the printing thread; while it is mid
emission, no other thread is inside any critical section (in particular not
between its length-read and its slot-write), and no step any other thread can
take changes the vector. -/
theorem renderAll_emission_inside_lock (orig : List (List Op)) (s : Sys)
    (hx : Exec (init orig) s) (t : Nat) (he : isEmit (ctlOf s t) = true) :
    s.lockHolder = some t ∧
    (∀ u, u ≠ t → inCrit (ctlOf s u) = false) ∧
    (∀ u s', u ≠ t → stepTo u s = some s' → s'.vec = s.vec) := by
  have hI : Inv orig s := inv_exec (inv_init orig) hx
  have hl : s.lockHolder = some t := hI.critHolder t (inCrit_of_isEmit _ he)
  refine ⟨hl, ?_, ?_⟩
  · intro u hu
    cases hcu : inCrit (ctlOf s u) with
    | false => rfl
    | true =>
      have := hI.critHolder u hcu
      rw [hl] at this
      cases this
      exact absurd rfl hu
  · intro u s' hu hstep
    obtain ⟨_, hcase⟩ := step_cases hstep
    rcases hcase with ⟨v, ops, hctl, hfree, _⟩ | ⟨ops, hctl, hfree, _⟩ |
      ⟨v, ops, hctl, hs'⟩ | ⟨v, n, ops, hctl, _⟩ | ⟨ops, hctl, hlu, _⟩ |
      ⟨k, ops, e, hctl, _, hs'⟩ | ⟨k, ops, hctl, _, hs'⟩ | ⟨ops, hctl, hs'⟩ |
      ⟨ops, hctl, hlu, _⟩
    · rw [hfree] at hl; cases hl
    · rw [hfree] at hl; cases hl
    · subst hs'; rfl
    · have := hI.critHolder u (by rw [hctl]; rfl)
      rw [hl] at this
      cases this
      exact absurd rfl hu
    · rw [hl] at hlu
      cases hlu
      exact absurd rfl hu
    · subst hs'; rfl
    · subst hs'; rfl
    · subst hs'; rfl
    · rw [hl] at hlu
      cases hlu
      exact absurd rfl hu

/-- Executions consisting only of steps of thread `t` taken while `t` is
inside (or about to enter) a `print` call: the span of one `renderAll`. -/
inductive PrintExec (t : Nat) : Sys → Sys → Prop where
  | refl (s : Sys) : PrintExec t s s
  | step {s s' s'' : Sys} (h0 : isRender (ctlOf s t) = true) (h1 : stepTo t s = some s')
      (h2 : PrintExec t s' s'') : PrintExec t s s''

theorem printStep_frame {t : Nat} {s s' : Sys}
    (h0 : isRender (ctlOf s t) = true) (h1 : stepTo t s = some s') :
    s'.vec = s.vec ∧ ∃ evs, s'.out = s.out ++ evs := by
  obtain ⟨_, hcase⟩ := step_cases h1
  rcases hcase with ⟨v, ops, hctl, _, hs'⟩ | ⟨ops, hctl, _, hs'⟩ |
    ⟨v, ops, hctl, hs'⟩ | ⟨v, n, ops, hctl, hs'⟩ | ⟨ops, hctl, _, hs'⟩ |
    ⟨k, ops, e, hctl, _, hs'⟩ | ⟨k, ops, hctl, _, hs'⟩ | ⟨ops, hctl, hs'⟩ |
    ⟨ops, hctl, _, hs'⟩
  · rw [hctl] at h0; simp [isRender] at h0
  · subst hs'; exact ⟨rfl, [], by simp⟩
  · rw [hctl] at h0; simp [isRender] at h0
  · rw [hctl] at h0; simp [isRender] at h0
  · rw [hctl] at h0; simp [isRender] at h0
  · subst hs'; exact ⟨rfl, [OutEvt.elem t e], rfl⟩
  · subst hs'; exact ⟨rfl, [], by simp⟩
  · subst hs'; exact ⟨rfl, [OutEvt.endl t], rfl⟩
  · subst hs'; exact ⟨rfl, [], by simp⟩

/-- Claim C9: a `renderAll` (`print`) call leaves the container's sequence
unchanged — after any span of print-call steps by a thread, the vector (its
length, elements and their order) is exactly what it was before; the call only
appends to the output (and transiently toggles the lock). -/
theorem renderAll_preserves_sequence (t : Nat) (s s' : Sys)
    (h : PrintExec t s s') :
    s'.vec = s.vec ∧ ∃ evs, s'.out = s.out ++ evs := by
  induction h with
  | refl s => exact ⟨rfl, [], by simp⟩
  | step h0 h1 h2 ih =>
    obtain ⟨hv1, evs1, ho1⟩ := printStep_frame h0 h1
    obtain ⟨hv2, evs2, ho2⟩ := ih
    refine ⟨by rw [hv2, hv1], evs1 ++ evs2, ?_⟩
    rw [ho2, ho1, List.append_assoc]

/-- Run `fuel` steps of thread `t`, requiring each to start in a print phase. -/
def runPrint (t : Nat) : Nat → Sys → Option Sys
  | 0, s => some s
  | fuel + 1, s =>
    if isRender (ctlOf s t) = true then
      match stepTo t s with
      | some s' => runPrint t fuel s'
      | none => none
    else none

theorem printExec_of_run (t : Nat) : ∀ (fuel : Nat) (s s' : Sys),
    runPrint t fuel s = some s' → PrintExec t s s' := by
  intro fuel
  induction fuel with
  | zero =>
    intro s s' h
    simp only [runPrint] at h
    cases h
    exact PrintExec.refl s
  | succ n ih =>
    intro s s' h
    simp only [runPrint] at h
    by_cases h0 : isRender (ctlOf s t) = true
    · rw [if_pos h0] at h
      cases hstep : stepTo t s with
      | none => rw [hstep] at h; cases h
      | some s₁ =>
        rw [hstep] at h
        exact PrintExec.step h0 hstep (ih s₁ s' h)
    · rw [if_neg h0] at h; cases h

/-- Claim C10 (helper step shape is in `step_cases`): the sequence length is
monotonically non-decreasing under every step of every reachable state;
`push_back`'s slot-write extends it by exactly one element leaving all stored
elements at their positions, and every other step leaves it unchanged. -/
theorem sequence_monotone (orig : List (List Op)) (s : Sys)
    (hx : Exec (init orig) s) (t : Nat) (s' : Sys) (hs : stepTo t s = some s') :
    IsInit s.vec s'.vec ∧
    (isPbWrite (ctlOf s t) = true → ∃ e, s'.vec = s.vec ++ [e]) ∧
    (isPbWrite (ctlOf s t) = false → s'.vec = s.vec) := by
  have hI : Inv orig s := inv_exec (inv_init orig) hx
  obtain ⟨_, hcase⟩ := step_cases hs
  rcases hcase with ⟨v, ops, hctl, _, hs'⟩ | ⟨ops, hctl, _, hs'⟩ |
    ⟨v, ops, hctl, hs'⟩ | ⟨v, n, ops, hctl, hs'⟩ | ⟨ops, hctl, _, hs'⟩ |
    ⟨k, ops, e, hctl, _, hs'⟩ | ⟨k, ops, hctl, _, hs'⟩ | ⟨ops, hctl, hs'⟩ |
    ⟨ops, hctl, _, hs'⟩
  · have hv : s'.vec = s.vec := by subst hs'; rfl
    exact ⟨hv ▸ isInit_refl s.vec, fun hw => by rw [hctl] at hw; simp [isPbWrite] at hw,
      fun _ => hv⟩
  · have hv : s'.vec = s.vec := by subst hs'; rfl
    exact ⟨hv ▸ isInit_refl s.vec, fun hw => by rw [hctl] at hw; simp [isPbWrite] at hw,
      fun _ => hv⟩
  · have hv : s'.vec = s.vec := by subst hs'; rfl
    exact ⟨hv ▸ isInit_refl s.vec, fun hw => by rw [hctl] at hw; simp [isPbWrite] at hw,
      fun _ => hv⟩
  · have hn : n = s.vec.length := hI.regOk t v n ops hctl
    have hv : s'.vec = s.vec ++ [(t, v)] := by
      subst hs'
      show s.vec.take n ++ [(t, v)] = s.vec ++ [(t, v)]
      rw [hn, List.take_length]
    refine ⟨isInit_of_append _ hv, fun _ => ⟨(t, v), hv⟩, fun hw => ?_⟩
    rw [hctl] at hw
    simp [isPbWrite] at hw
  · have hv : s'.vec = s.vec := by subst hs'; rfl
    exact ⟨hv ▸ isInit_refl s.vec, fun hw => by rw [hctl] at hw; simp [isPbWrite] at hw,
      fun _ => hv⟩
  · have hv : s'.vec = s.vec := by subst hs'; rfl
    exact ⟨hv ▸ isInit_refl s.vec, fun hw => by rw [hctl] at hw; simp [isPbWrite] at hw,
      fun _ => hv⟩
  · have hv : s'.vec = s.vec := by subst hs'; rfl
    exact ⟨hv ▸ isInit_refl s.vec, fun hw => by rw [hctl] at hw; simp [isPbWrite] at hw,
      fun _ => hv⟩
  · have hv : s'.vec = s.vec := by subst hs'; rfl
    exact ⟨hv ▸ isInit_refl s.vec, fun hw => by rw [hctl] at hw; simp [isPbWrite] at hw,
      fun _ => hv⟩
  · have hv : s'.vec = s.vec := by subst hs'; rfl
    exact ⟨hv ▸ isInit_refl s.vec, fun hw => by rw [hctl] at hw; simp [isPbWrite] at hw,
      fun _ => hv⟩

/-!
### `Vector::push_back` under a mutation fault (claim C2)

`push_back` is `mut.lock(); vec.push_back(i); mut.unlock();` with explicit,
unscoped lock calls (src/unnamed/part_000:42-49).  `std::vector::push_back`
can throw (`std::bad_alloc` when growing the buffer fails); if it does, the
exception propagates out of `Vector::push_back` before `mut.unlock()` is
reached.  The model makes the fault explicit as a boolean and returns the
mutex state and contents on both paths.
-/

/-- The body of `Vector::push_back`: state is (mutex held?, contents);
`Except.error` is the exception propagating out of the call. -/
def push_backExc (vec : List Int) (i : Int) (allocFails : Bool) :
    Except (Bool × List Int) (Bool × List Int) :=
  -- mut.lock(): the mutex is now held by the caller
  let locked := true
  if allocFails then
    -- vec.push_back(i) throws: mut.unlock() is never executed
    Except.error (locked, vec)
  else
    -- vec.push_back(i) appends; then mut.unlock() releases
    Except.ok (false, vec ++ [i])

/-- The mutex state after the call, on either exit path. -/
def lockAfter (r : Except (Bool × List Int) (Bool × List Int)) : Bool :=
  match r with
  | .error st => st.1
  | .ok st => st.1

/-- Counterexample to claim C2 as stated: at the concrete input
(`vec = []`, `i = 0`, allocation fails) the call exits by the failure path
with the mutex still held — the lock is not released on every exit path. -/
theorem push_back_fault_leaves_lock_held :
    push_backExc [] 0 true = Except.error (true, []) ∧
    lockAfter (push_backExc [] 0 true) = true :=
  ⟨rfl, rfl⟩

/-- Claim C2 as amended: `push_back` acquires the lock and, on the normal
path, appends the value at the end (preserving insertion order) and releases
the lock; but if the mutation faults, the exception propagates with the lock
still held — the lock is not released on the failure path. -/
theorem push_back_appends_and_releases (vec : List Int) (i : Int) :
    push_backExc vec i false = Except.ok (false, vec ++ [i]) ∧
    push_backExc vec i true = Except.error (true, vec) :=
  ⟨rfl, rfl⟩

/-!
### The characters `Vector::print` emits (claim C7)
-/

/-- One loop iteration's characters: `std::cout << i << ", "`. -/
def renderElem (i : Int) : List Char := (toString i).toList ++ [',', ' ']

/-- The characters `Vector::print` (src/unnamed/part_000:56-65) emits for a
given contents: each element in order via `cout << i << ", "`, then
`std::endl`. -/
def printOutput (vec : List Int) : List Char :=
  flatCat (vec.map renderElem) ++ ['\n']

/-- Written from the spec's words ("elements joined by a separator"): the
pieces in order with the separator between consecutive pieces. -/
def joinSep (sep : List Char) : List (List Char) → List Char
  | [] => []
  | [x] => x
  | x :: y :: rest => x ++ sep ++ joinSep sep (y :: rest)

/-- Claim C7: for every container state, `renderAll` (`print`) emits a textual
representation of the full sequence in insertion order with the elements
joined by the separator `", "` — a separator between every two consecutive
elements (the loop also emits one trailing separator after the last element,
then the newline). -/
theorem renderAll_output_joined (vec : List Int) :
    printOutput vec =
      joinSep [',', ' '] (vec.map (fun i => (toString i).toList)) ++
        (if vec.isEmpty then ['\n'] else [',', ' ', '\n']) := by
  induction vec with
  | nil => rfl
  | cons x xs ih =>
    cases xs with
    | nil =>
      simp [printOutput, flatCat, renderElem, joinSep, List.append_assoc]
    | cons y ys =>
      have hstep : printOutput (x :: y :: ys) = renderElem x ++ printOutput (y :: ys) := by
        show flatCat (renderElem x :: (y :: ys).map renderElem) ++ ['\n'] =
          renderElem x ++ (flatCat ((y :: ys).map renderElem) ++ ['\n'])
        show (renderElem x ++ flatCat ((y :: ys).map renderElem)) ++ ['\n'] =
          renderElem x ++ (flatCat ((y :: ys).map renderElem) ++ ['\n'])
        rw [List.append_assoc]
      rw [hstep, ih]
      show renderElem x ++ (joinSep [',', ' '] ((y :: ys).map (fun i => (toString i).toList)) ++
          [',', ' ', '\n']) =
        ((toString x).toList ++ [',', ' '] ++
          joinSep [',', ' '] ((y :: ys).map (fun i => (toString i).toList))) ++
          [',', ' ', '\n']
      simp [renderElem, List.append_assoc]

/-- The characters of one output event (`cout << i << ", "` or `endl`). -/
def renderEvt : OutEvt → List Char
  | .elem _ e => renderElem e.2
  | .endl _ => ['\n']

/-- The characters of one completed `print` block are exactly `printOutput`
of the snapshot's (untagged) values: the machine-level output events and the
functional model of `print` agree. -/
theorem renderBlock_chars (t : Nat) (v : List (Nat × Int)) :
    flatCat ((renderBlock (t, v)).map renderEvt) = printOutput (v.map Prod.snd) := by
  induction v with
  | nil => rfl
  | cons e es ih =>
    show renderElem e.2 ++ flatCat ((es.map (OutEvt.elem t) ++ [OutEvt.endl t]).map renderEvt) =
      printOutput ((e :: es).map Prod.snd)
    rw [show flatCat ((es.map (OutEvt.elem t) ++ [OutEvt.endl t]).map renderEvt) =
      printOutput (es.map Prod.snd) from ih]
    simp [printOutput, flatCat, List.append_assoc]

/-- `main` of src/unnamed/part_000:89-102: start the three workers (or, in
general, one per program), run some interleaving, join them all; `main` ends
without an explicit `return`, so the process exit status is `0`. -/
def mainRun (orig : List (List Op)) (sched : List Nat) : Option Nat :=
  match runSched sched (init orig) with
  | some s => if allCtlDone s.threads = true then some 0 else none
  | none => none

end Cont

/-- Claim C8: on every normal completion (all workers joined) of each of the
three programs, the process exit status is zero; no schedule of any of the
three `main`s produces a non-zero status. -/
theorem program_exit_status_zero :
    (∀ texts sched c, Sink.mainRun texts sched = some c → c = 0) ∧
    (∀ texts sched c, Scr.mainRun texts sched = some c → c = 0) ∧
    (∀ orig sched c, Cont.mainRun orig sched = some c → c = 0) := by
  refine ⟨?_, ?_, ?_⟩
  · intro texts sched c h
    unfold Sink.mainRun at h
    cases hr : Sink.runSched sched (Sink.init texts) with
    | none => rw [hr] at h; cases h
    | some s =>
      rw [hr] at h
      have h' : (if Sink.allCtlDone s.threads = true then some 0 else none) = some c := h
      by_cases hd : Sink.allCtlDone s.threads = true
      · rw [if_pos hd] at h'; cases h'; rfl
      · rw [if_neg hd] at h'; cases h'
  · intro texts sched c h
    unfold Scr.mainRun at h
    cases hr : Scr.runSched sched (Scr.init texts) with
    | none => rw [hr] at h; cases h
    | some s =>
      rw [hr] at h
      have h' : (if Scr.allScrDone s.threads = true then some 0 else none) = some c := h
      by_cases hd : Scr.allScrDone s.threads = true
      · rw [if_pos hd] at h'; cases h'; rfl
      · rw [if_neg hd] at h'; cases h'
  · intro orig sched c h
    unfold Cont.mainRun at h
    cases hr : Cont.runSched sched (Cont.init orig) with
    | none => rw [hr] at h; cases h
    | some s =>
      rw [hr] at h
      have h' : (if Cont.allCtlDone s.threads = true then some 0 else none) = some c := h
      by_cases hd : Cont.allCtlDone s.threads = true
      · rw [if_pos hd] at h'; cases h'; rfl
      · rw [if_neg hd] at h'; cases h'

namespace Cont

/-- Two workers, one `push_back` each. -/
def w3orig : List (List Op) := [[Op.push 2], [Op.push 3]]

def w3sched : List Nat := [0, 0, 0, 0, 1, 1, 1, 1]

def w3final : Sys := (runSched w3sched (init w3orig)).getD (init w3orig)

/-- Witness for C3: a complete concrete execution of two workers pushing 2
and 3; the final vector holds each worker's value once and has length 2. -/
theorem append_no_lost_updates_witness :
    tfilter 0 w3final.vec = [2] ∧ tfilter 1 w3final.vec = [3] ∧
    w3final.vec.length = totalPushes w3orig :=
  ⟨(append_no_lost_updates w3orig w3final (exec_of_run w3sched _ _ (by rfl)) (by rfl)).1
      0 (by decide),
   (append_no_lost_updates w3orig w3final (exec_of_run w3sched _ _ (by rfl)) (by rfl)).1
      1 (by decide),
   (append_no_lost_updates w3orig w3final (exec_of_run w3sched _ _ (by rfl)) (by rfl)).2⟩

/-- One worker: `push_back(1)` then `print()`. -/
def w5orig : List (List Op) := [[Op.push 1, Op.render]]

def w5sched : List Nat := [0, 0, 0, 0, 0, 0, 0, 0, 0]

def w5final : Sys := (runSched w5sched (init w5orig)).getD (init w5orig)

/-- Witness for C5: the theorem applied to a concrete complete execution. -/
theorem renderAll_snapshots_prefix_consistent_witness :
    ∃ blocks : List (Nat × List (Nat × Int)),
      (∀ b ∈ blocks, b.1 < w5orig.length ∧ Snap w5orig b.2) ∧
      w5final.out = blockFlat blocks ++ liveOut w5final :=
  renderAll_snapshots_prefix_consistent w5orig w5final (exec_of_run w5sched _ _ (by rfl))

def w6sched : List Nat := [0, 0, 0, 0, 0, 0]

/-- The state reached mid-`print`: worker 0 has pushed 1, emitted one element. -/
def w6mid : Sys := (runSched w6sched (init w5orig)).getD (init w5orig)

/-- Witness for C6: mid-emission, the printing thread holds the lock, nobody
else is in a critical section, and no other thread's step changes the vector. -/
theorem renderAll_emission_inside_lock_witness :
    w6mid.lockHolder = some 0 ∧
    (∀ u, u ≠ 0 → inCrit (ctlOf w6mid u) = false) ∧
    (∀ u s', u ≠ 0 → stepTo u w6mid = some s' → s'.vec = w6mid.vec) :=
  renderAll_emission_inside_lock w5orig w6mid (exec_of_run w6sched _ _ (by rfl)) 0 (by rfl)

/-- A container already holding one entry, one worker about to `print()`. -/
def w9start : Sys :=
  { lockHolder := none, vec := [(0, 7)], out := [], threads := [Ctl.atOp [Op.render]] }

def w9final : Sys := (runPrint 0 5 w9start).getD w9start

/-- Witness for C9: a full concrete `print` call leaves the vector unchanged
and only appends to the output. -/
theorem renderAll_preserves_sequence_witness :
    w9final.vec = w9start.vec ∧ ∃ evs, w9final.out = w9start.out ++ evs :=
  renderAll_preserves_sequence 0 w9start w9final (printExec_of_run 0 5 _ _ (by rfl))

def w10orig : List (List Op) := [[Op.push 2]]

def w10sched : List Nat := [0, 0]

/-- The reachable state in which worker 0 is at the slot-write of
`push_back(2)`. -/
def w10mid : Sys := (runSched w10sched (init w10orig)).getD (init w10orig)

def w10next : Sys := (stepTo 0 w10mid).getD w10mid

/-- Witness for C10: the slot-write extends the vector by exactly one entry,
keeping the old contents as an initial segment. -/
theorem sequence_monotone_witness :
    IsInit w10mid.vec w10next.vec ∧
    (isPbWrite (ctlOf w10mid 0) = true → ∃ e, w10next.vec = w10mid.vec ++ [e]) ∧
    (isPbWrite (ctlOf w10mid 0) = false → w10next.vec = w10mid.vec) :=
  sequence_monotone w10orig w10mid (exec_of_run w10sched _ _ (by rfl)) 0 w10next (by rfl)

end Cont

/-- Witness for C8: each of the three programs, run to completion on a
concrete schedule, exits with status zero. -/
theorem program_exit_status_zero_witness :
    (0 : Nat) = 0 ∧ (0 : Nat) = 0 ∧ (0 : Nat) = 0 :=
  ⟨program_exit_status_zero.1 [['A']] [0, 0, 0, 0] 0 (by rfl),
   program_exit_status_zero.2.1 [['A']] [0] 0 (by rfl),
   program_exit_status_zero.2.2 [[Cont.Op.push 1]] [0, 0, 0, 0] 0 (by rfl)⟩

namespace Cont

/-- A complete schedule of the three-worker program: worker 0 runs its 55
atomic steps, then worker 1 its 80, then worker 2 its 105. -/
def w4sched : List Nat :=
  List.replicate 55 0 ++ List.replicate 80 1 ++ List.replicate 105 2

def w4final : Sys := (runSched w4sched (init mainOrig)).getD (init mainOrig)

/-- Witness for C4: the concrete sequential schedule of the three-worker
program ends with 15 elements, each worker's values in order 0,1,2,3,4. -/
theorem main_scenario_fifteen_elements_witness :
    w4final.vec.length = 15 ∧
    tfilter 0 w4final.vec = [0, 1, 2, 3, 4] ∧
    tfilter 1 w4final.vec = [0, 1, 2, 3, 4] ∧
    tfilter 2 w4final.vec = [0, 1, 2, 3, 4] :=
  ⟨(main_scenario_fifteen_elements w4final (exec_of_run w4sched _ _ (by rfl)) (by rfl)).1,
   (main_scenario_fifteen_elements w4final (exec_of_run w4sched _ _ (by rfl)) (by rfl)).2
      0 (by decide),
   (main_scenario_fifteen_elements w4final (exec_of_run w4sched _ _ (by rfl)) (by rfl)).2
      1 (by decide),
   (main_scenario_fifteen_elements w4final (exec_of_run w4sched _ _ (by rfl)) (by rfl)).2
      2 (by decide)⟩

end Cont
